import Mathlib

/-
Verification of the Gact store (gactjs/store) core against its specification.

The development shallowly embeds the TypeScript sources:
  src/createStore.ts            -- the state container engine
  src/utils/clone.ts            -- the deep cloner (value-integrity discipline)
  src/utils/createPathFactory.ts
  src/utils/createReadManager.ts
  src/utils/computePathLineage.ts
  src/utils/getByPath.ts, getContainer.ts, deepFreeze.ts, isPrimitive.ts,
  src/utils/isContainer.ts, isStoreRecord.ts, cloneComplex.ts

Modelling conventions:
  * JavaScript strings are lists of characters (JStr).
  * JavaScript numbers appearing in store values are restricted to integers
    (the repository and its tests only store integral numbers); floats are out
    of scope.
  * Store values are modelled as trees (SVal).  Reference semantics matters in
    exactly two places and is modelled explicitly there:
      - the cloner rejects aliasing/cycles: a separate heap-based model
        (namespace HeapModel) embeds cloneHelper over an explicit heap;
      - canonicalization / memoization identity: path objects and read-manager
        clones carry allocation identifiers, so that "same reference" is
        expressible as identity of the allocated object.
  * Arrays are modelled densely (no holes).  Writes past the end of an array
    and array-hole creation by delete are outside the model; no theorem below
    exercises them.
  * Uncloneable inputs (values that are none of primitive / plain record /
    array / Blob / File, e.g. Map or class instances) are represented by the
    constructor SVal.exotic.
-/

set_option maxHeartbeats 1000000

namespace GactStore

/-- JavaScript strings, modelled as lists of characters. -/
abbrev JStr := List Char

/-- Primitive store values, mirroring utils/isPrimitive.ts: string, number,
bigint, boolean, null. -/
inductive Prim
  | str (s : JStr)
  | num (n : Int)
  | bigint (n : Int)
  | bool (b : Bool)
  | null
  deriving DecidableEq, Repr

/-- Store values.  Mirrors the StoreValue union from src/types: primitives,
plain records (StoreRecord), arrays (StoreArray), Blob, File; `exotic` stands
for any other runtime value (Map, Set, class instance, undefined...) which
cloneComplex refuses to clone. -/
inductive SVal
  | prim (p : Prim)
  | record (fields : List (JStr × SVal))
  | array (elems : List SVal)
  | blob (content : JStr)
  | file (content : JStr) (name : JStr)
  | exotic
  deriving Repr

mutual

/-- Decidable equality for store values (hand-written: the nested list keeps
the automatic deriving from firing). -/
def decEqSVal : (a b : SVal) → Decidable (a = b)
  | .prim p, .prim q =>
      if h : p = q then isTrue (by rw [h])
      else isFalse (fun hh => h (by cases hh; rfl))
  | .record fs, .record gs =>
      match decEqFields fs gs with
      | isTrue h => isTrue (by rw [h])
      | isFalse h => isFalse (fun hh => h (by cases hh; rfl))
  | .array xs, .array ys =>
      match decEqElems xs ys with
      | isTrue h => isTrue (by rw [h])
      | isFalse h => isFalse (fun hh => h (by cases hh; rfl))
  | .blob c, .blob d =>
      if h : c = d then isTrue (by rw [h])
      else isFalse (fun hh => h (by cases hh; rfl))
  | .file c n, .file d m =>
      if h : c = d ∧ n = m then isTrue (by rw [h.1, h.2])
      else isFalse (fun hh => h (by cases hh; exact ⟨rfl, rfl⟩))
  | .exotic, .exotic => isTrue rfl
  | .prim _, .record _ => isFalse (fun h => SVal.noConfusion h)
  | .prim _, .array _ => isFalse (fun h => SVal.noConfusion h)
  | .prim _, .blob _ => isFalse (fun h => SVal.noConfusion h)
  | .prim _, .file _ _ => isFalse (fun h => SVal.noConfusion h)
  | .prim _, .exotic => isFalse (fun h => SVal.noConfusion h)
  | .record _, .prim _ => isFalse (fun h => SVal.noConfusion h)
  | .record _, .array _ => isFalse (fun h => SVal.noConfusion h)
  | .record _, .blob _ => isFalse (fun h => SVal.noConfusion h)
  | .record _, .file _ _ => isFalse (fun h => SVal.noConfusion h)
  | .record _, .exotic => isFalse (fun h => SVal.noConfusion h)
  | .array _, .prim _ => isFalse (fun h => SVal.noConfusion h)
  | .array _, .record _ => isFalse (fun h => SVal.noConfusion h)
  | .array _, .blob _ => isFalse (fun h => SVal.noConfusion h)
  | .array _, .file _ _ => isFalse (fun h => SVal.noConfusion h)
  | .array _, .exotic => isFalse (fun h => SVal.noConfusion h)
  | .blob _, .prim _ => isFalse (fun h => SVal.noConfusion h)
  | .blob _, .record _ => isFalse (fun h => SVal.noConfusion h)
  | .blob _, .array _ => isFalse (fun h => SVal.noConfusion h)
  | .blob _, .file _ _ => isFalse (fun h => SVal.noConfusion h)
  | .blob _, .exotic => isFalse (fun h => SVal.noConfusion h)
  | .file _ _, .prim _ => isFalse (fun h => SVal.noConfusion h)
  | .file _ _, .record _ => isFalse (fun h => SVal.noConfusion h)
  | .file _ _, .array _ => isFalse (fun h => SVal.noConfusion h)
  | .file _ _, .blob _ => isFalse (fun h => SVal.noConfusion h)
  | .file _ _, .exotic => isFalse (fun h => SVal.noConfusion h)
  | .exotic, .prim _ => isFalse (fun h => SVal.noConfusion h)
  | .exotic, .record _ => isFalse (fun h => SVal.noConfusion h)
  | .exotic, .array _ => isFalse (fun h => SVal.noConfusion h)
  | .exotic, .blob _ => isFalse (fun h => SVal.noConfusion h)
  | .exotic, .file _ _ => isFalse (fun h => SVal.noConfusion h)

/-- Decidable equality for record field lists. -/
def decEqFields : (a b : List (JStr × SVal)) → Decidable (a = b)
  | [], [] => isTrue rfl
  | [], _ :: _ => isFalse (fun h => List.noConfusion h)
  | _ :: _, [] => isFalse (fun h => List.noConfusion h)
  | (k, v) :: rest, (k2, v2) :: rest2 =>
      if hk : k = k2 then
        match decEqSVal v v2, decEqFields rest rest2 with
        | isTrue h1, isTrue h2 => isTrue (by rw [hk, h1, h2])
        | isFalse h1, _ => isFalse (fun hh => by cases hh; exact h1 rfl)
        | isTrue _, isFalse h2 => isFalse (fun hh => by cases hh; exact h2 rfl)
      else isFalse (fun hh => by cases hh; exact hk rfl)

/-- Decidable equality for array element lists. -/
def decEqElems : (a b : List SVal) → Decidable (a = b)
  | [], [] => isTrue rfl
  | [], _ :: _ => isFalse (fun h => List.noConfusion h)
  | _ :: _, [] => isFalse (fun h => List.noConfusion h)
  | v :: rest, v2 :: rest2 =>
      match decEqSVal v v2, decEqElems rest rest2 with
      | isTrue h1, isTrue h2 => isTrue (by rw [h1, h2])
      | isFalse h1, _ => isFalse (fun hh => by cases hh; exact h1 rfl)
      | isTrue _, isFalse h2 => isFalse (fun hh => by cases hh; exact h2 rfl)

end

instance : DecidableEq SVal := decEqSVal

/-- Canonical string form of an array index or numeric key: String(i). -/
def natKey (i : Nat) : JStr := (toString i).toList

/-- Path keys as passed to the path factory at runtime: the TypeScript type
says string, but the repository tests also pass numbers (path("d", 3)). -/
inductive Key
  | str (s : JStr)
  | num (n : Nat)
  deriving DecidableEq, Repr

/-- String coercion of a key, as performed implicitly by String(path) and by
property access. -/
def Key.jsStr : Key → JStr
  | .str s => s
  | .num n => natKey n

/-- String(array) for a key sequence: elements joined with commas. -/
def joined (ks : List Key) : JStr :=
  List.intercalate [','] (ks.map Key.jsStr)

/-- Type guard utils/isPrimitive.ts. -/
def isPrimitive : SVal → Bool
  | .prim _ => true
  | _ => false

/-- Type guard utils/isStoreRecord.ts (plain object: prototype null or
Object.prototype). -/
def isStoreRecord : SVal → Bool
  | .record _ => true
  | _ => false

/-- Type guard utils/isContainer.ts: Array.isArray(value) || isStoreRecord. -/
def isContainer : SVal → Bool
  | .record _ => true
  | .array _ => true
  | _ => false

/-- Canonical-numeric-string parsing: JavaScript array index own-properties
are exactly the canonical decimal strings "0", "1", ... without leading
zeros. -/
def parseIndex (s : JStr) : Option Nat :=
  if s ≠ [] ∧ s.all Char.isDigit ∧ (s = ['0'] ∨ s.head? ≠ some '0') then
    some (s.foldl (fun a c => a * 10 + (c.toNat - 48)) 0)
  else none

/-- First-match association lookup on record fields (JS property lookup). -/
def lookupField : List (JStr × SVal) → JStr → Option SVal
  | [], _ => none
  | (k, v) :: rest, ks => if k = ks then some v else lookupField rest ks

/-- Reflect.get on a store value with a path key (undefined becomes none).
For arrays the own properties are the canonical indices and length. -/
def svLookup (v : SVal) (k : Key) : Option SVal :=
  match v with
  | .record fields => lookupField fields k.jsStr
  | .array elems =>
      if k.jsStr = "length".toList then some (.prim (.num elems.length))
      else
        match parseIndex k.jsStr with
        | some i => elems.get? i
        | none => none
  | _ => none

/-- Object.prototype.hasOwnProperty.call(v, k) over the modelled values. -/
def hasOwn (v : SVal) (k : Key) : Bool :=
  (svLookup v k).isSome

/-- Embeds utils/getByPath.ts: walk the path, requiring at every step that the
current value is a container owning the key; none models the thrown
`${path} does not exist`. -/
def getByPath : SVal → List Key → Option SVal
  | v, [] => some v
  | v, k :: rest =>
      if isContainer v then
        match svLookup v k with
        | some c => getByPath c rest
        | none => none
      else none

/-- Clone failures, mirroring the throws of utils/clone.ts and
utils/cloneComplex.ts. -/
inductive CloneErr
  | uncloneable
  | refCycle
  | getterSetter
  | invalidDescriptor
  | invalidShape
  deriving DecidableEq, Repr

mutual

/-- Embeds utils/clone.ts restricted to tree-shaped values: primitives pass
through; records/arrays/blobs/files get a structural twin with every property
cloned recursively; `exotic` hits the final branch of cloneComplex and fails
with Uncloneable.  (On tree-shaped inputs the visited set of cloneHelper never
fires; aliasing and cycles are treated in the heap-based model below.  All
modelled values have plain data properties with default descriptors and no
symbol keys, so those checks of cloneHelper cannot fail here.) -/
def clone : SVal → Except CloneErr SVal
  | .prim p => .ok (.prim p)
  | .blob c => .ok (.blob c)
  | .file c n => .ok (.file c n)
  | .exotic => .error .uncloneable
  | .record fields => (cloneFields fields).map SVal.record
  | .array elems => (cloneElems elems).map SVal.array

/-- Clones record fields in order (the descriptor loop of cloneHelper). -/
def cloneFields : List (JStr × SVal) → Except CloneErr (List (JStr × SVal))
  | [] => .ok []
  | (k, v) :: rest => do
      let c ← clone v
      let cs ← cloneFields rest
      .ok ((k, c) :: cs)

/-- Clones array elements in order. -/
def cloneElems : List SVal → Except CloneErr (List SVal)
  | [] => .ok []
  | v :: rest => do
      let c ← clone v
      let cs ← cloneElems rest
      .ok (c :: cs)

end

mutual

/-- Decides that a value graph contains no uncloneable (exotic) node; on tree
values this characterizes success of `clone`. -/
def NoExotic : SVal → Bool
  | .prim _ => true
  | .blob _ => true
  | .file _ _ => true
  | .exotic => false
  | .record fields => NoExoticFields fields
  | .array elems => NoExoticElems elems

/-- Pointwise NoExotic over record fields. -/
def NoExoticFields : List (JStr × SVal) → Bool
  | [] => true
  | (_, v) :: rest => NoExotic v && NoExoticFields rest

/-- Pointwise NoExotic over array elements. -/
def NoExoticElems : List SVal → Bool
  | [] => true
  | v :: rest => NoExotic v && NoExoticElems rest

end

mutual

theorem clone_of_noExotic : ∀ v : SVal, NoExotic v = true → clone v = .ok v
  | .prim _, _ => rfl
  | .blob _, _ => rfl
  | .file _ _, _ => rfl
  | .record fields, h => by
      simp only [clone]
      rw [cloneFields_of_noExotic fields (by simpa [NoExotic] using h)]
      rfl
  | .array elems, h => by
      simp only [clone]
      rw [cloneElems_of_noExotic elems (by simpa [NoExotic] using h)]
      rfl

theorem cloneFields_of_noExotic : ∀ fs : List (JStr × SVal),
    NoExoticFields fs = true → cloneFields fs = .ok fs
  | [], _ => rfl
  | (k, v) :: rest, h => by
      have h1 : NoExotic v = true := by
        simp only [NoExoticFields, Bool.and_eq_true] at h
        exact h.1
      have h2 : NoExoticFields rest = true := by
        simp only [NoExoticFields, Bool.and_eq_true] at h
        exact h.2
      simp only [cloneFields, clone_of_noExotic v h1,
        cloneFields_of_noExotic rest h2]
      rfl

theorem cloneElems_of_noExotic : ∀ vs : List SVal,
    NoExoticElems vs = true → cloneElems vs = .ok vs
  | [], _ => rfl
  | v :: rest, h => by
      have h1 : NoExotic v = true := by
        simp only [NoExoticElems, Bool.and_eq_true] at h
        exact h.1
      have h2 : NoExoticElems rest = true := by
        simp only [NoExoticElems, Bool.and_eq_true] at h
        exact h.2
      simp only [cloneElems, clone_of_noExotic v h1,
        cloneElems_of_noExotic rest h2]
      rfl

end

/-! ### Path lineage (src/utils/computePathLineage.ts) -/

/-- Object.entries over a modelled store value: record fields in insertion
order; array elements with their canonical index strings; no enumerable own
properties otherwise. -/
def SVal.entries : SVal → List (JStr × SVal)
  | .record fields => fields
  | .array elems => elems.enum.map (fun p => (natKey p.1, p.2))
  | _ => []

/-- Embeds computeAncestorPaths: path.slice(0, i) for every i < path.length
(all strict ancestors, root through immediate parent). -/
def computeAncestorPaths (path : List Key) : List (List Key) :=
  (List.range path.length).map (fun i => path.take i)

mutual

/-- Embeds computeDescendantPaths: empty unless the value is a container, else
for each own enumerable entry the child path followed by its recursive
descendants. -/
def computeDescendantPaths : List Key → SVal → List (List Key)
  | _, .prim _ => []
  | _, .blob _ => []
  | _, .file _ _ => []
  | _, .exotic => []
  | path, .record fields => descendantsFields path fields
  | path, .array elems => descendantsElems path 0 elems

/-- Descendant paths contributed by a record field list. -/
def descendantsFields : List Key → List (JStr × SVal) → List (List Key)
  | _, [] => []
  | path, (k, c) :: rest =>
      (path ++ [Key.str k]) ::
        (computeDescendantPaths (path ++ [Key.str k]) c ++
          descendantsFields path rest)

/-- Descendant paths contributed by array elements starting at index i. -/
def descendantsElems : List Key → Nat → List SVal → List (List Key)
  | _, _, [] => []
  | path, i, c :: rest =>
      (path ++ [Key.str (natKey i)]) ::
        (computeDescendantPaths (path ++ [Key.str (natKey i)]) c ++
          descendantsElems path (i + 1) rest)

end

/-- Embeds computePathLineage: ancestors, the path itself, and descendants
(the source wraps these in a Set; only membership matters downstream, so the
model keeps the list). -/
def computePathLineage (path : List Key) (value : SVal) : List (List Key) :=
  computeAncestorPaths path ++ [path] ++ computeDescendantPaths path value

/-- Specification-side characterization of descendant key sequences: the
nonempty key lists reachable by recursively walking the own enumerable keys of
a container value. -/
inductive DescendantKeys : SVal → List Key → Prop
  | head {v : SVal} {k : JStr} {c : SVal} (h : (k, c) ∈ v.entries) :
      DescendantKeys v [Key.str k]
  | step {v : SVal} {k : JStr} {c : SVal} {ks : List Key}
      (h : (k, c) ∈ v.entries) (hc : DescendantKeys c ks) :
      DescendantKeys v (Key.str k :: ks)

theorem mem_computeAncestorPaths {p q : List Key} :
    q ∈ computeAncestorPaths p ↔ q <+: p ∧ q ≠ p := by
  unfold computeAncestorPaths
  simp only [List.mem_map, List.mem_range]
  constructor
  · rintro ⟨i, hi, rfl⟩
    refine ⟨List.take_prefix i p, fun hq => ?_⟩
    have : (p.take i).length = i := by
      simp [List.length_take, Nat.min_eq_left (Nat.le_of_lt hi)]
    rw [hq] at this
    omega
  · rintro ⟨hpre, hne⟩
    refine ⟨q.length, ?_, ?_⟩
    · rcases Nat.lt_or_ge q.length p.length with h | h
      · exact h
      · exfalso
        exact hne (hpre.eq_of_length (Nat.le_antisymm hpre.length_le h))
    · exact (List.prefix_iff_eq_take.mp hpre).symm

theorem mem_descendantsFields_sound {fs : List (JStr × SVal)} {p q : List Key}
    (hsound : ∀ k c, (k, c) ∈ fs → ∀ q2,
      q2 ∈ computeDescendantPaths (p ++ [Key.str k]) c →
      ∃ ks, DescendantKeys c ks ∧ q2 = p ++ [Key.str k] ++ ks)
    (h : q ∈ descendantsFields p fs) :
    ∃ k c, (k, c) ∈ fs ∧
      (q = p ++ [Key.str k] ∨
        ∃ ks, DescendantKeys c ks ∧ q = p ++ (Key.str k :: ks)) := by
  induction fs with
  | nil => simp [descendantsFields] at h
  | cons kc rest ih =>
      obtain ⟨k, c⟩ := kc
      simp only [descendantsFields, List.mem_cons, List.mem_append] at h
      rcases h with rfl | h | h
      · exact ⟨k, c, List.mem_cons_self _ _, Or.inl rfl⟩
      · obtain ⟨ks, hks, rfl⟩ :=
          hsound k c (List.mem_cons_self _ _) q h
        exact ⟨k, c, List.mem_cons_self _ _,
          Or.inr ⟨ks, hks, by simp⟩⟩
      · obtain ⟨k2, c2, hmem, hrest⟩ :=
          ih (fun k2 c2 hm => hsound k2 c2 (List.mem_cons_of_mem _ hm)) h
        exact ⟨k2, c2, List.mem_cons_of_mem _ hmem, hrest⟩

theorem mem_descendantsElems_sound {elems : List SVal} {p q : List Key}
    {i : Nat}
    (hsound : ∀ j c, elems.get? j = some c → ∀ q2,
      q2 ∈ computeDescendantPaths (p ++ [Key.str (natKey (i + j))]) c →
      ∃ ks, DescendantKeys c ks ∧
        q2 = p ++ [Key.str (natKey (i + j))] ++ ks)
    (h : q ∈ descendantsElems p i elems) :
    ∃ j c, elems.get? j = some c ∧
      (q = p ++ [Key.str (natKey (i + j))] ∨
        ∃ ks, DescendantKeys c ks ∧
          q = p ++ (Key.str (natKey (i + j)) :: ks)) := by
  induction elems generalizing i with
  | nil => simp [descendantsElems] at h
  | cons c rest ih =>
      simp only [descendantsElems, List.mem_cons, List.mem_append] at h
      rcases h with rfl | h | h
      · exact ⟨0, c, rfl, Or.inl (by simp)⟩
      · obtain ⟨ks, hks, rfl⟩ := hsound 0 c rfl q (by simpa using h)
        exact ⟨0, c, rfl, Or.inr ⟨ks, hks, by simp⟩⟩
      · obtain ⟨j, c2, hj, hrest⟩ := ih
          (i := i + 1)
          (fun j c2 hjc => by
            have := hsound (j + 1) c2 (by simpa using hjc)
            simpa [Nat.add_assoc, Nat.add_comm 1 j] using this) h
        refine ⟨j + 1, c2, by simpa using hj, ?_⟩
        simpa [Nat.add_assoc, Nat.add_comm 1 j] using hrest

theorem computeDescendantPaths_sound : ∀ (v : SVal) (p q : List Key),
    q ∈ computeDescendantPaths p v → ∃ ks, DescendantKeys v ks ∧ q = p ++ ks
  | .prim _, _, q, h => by simp [computeDescendantPaths] at h
  | .blob _, _, q, h => by simp [computeDescendantPaths] at h
  | .file _ _, _, q, h => by simp [computeDescendantPaths] at h
  | .exotic, _, q, h => by simp [computeDescendantPaths] at h
  | .record fields, p, q, h => by
      simp only [computeDescendantPaths] at h
      obtain ⟨k, c, hmem, hshape⟩ := mem_descendantsFields_sound
        (fun k c hm q2 h2 =>
          computeDescendantPaths_sound c _ q2 h2) h
      have hent : (k, c) ∈ (SVal.record fields).entries := hmem
      rcases hshape with rfl | ⟨ks, hks, rfl⟩
      · exact ⟨[Key.str k], DescendantKeys.head hent, rfl⟩
      · exact ⟨Key.str k :: ks, DescendantKeys.step hent hks, rfl⟩
  | .array elems, p, q, h => by
      simp only [computeDescendantPaths] at h
      obtain ⟨j, c, hj, hshape⟩ := mem_descendantsElems_sound
        (i := 0)
        (fun j c hjc q2 h2 =>
          computeDescendantPaths_sound c _ q2 h2) h
      have hent : (natKey j, c) ∈ (SVal.array elems).entries := by
        simp only [SVal.entries, List.mem_map]
        exact ⟨(j, c), by simp [List.mk_mem_enum_iff_getElem?,
          ← List.get?_eq_getElem?, hj], rfl⟩
      rcases hshape with rfl | ⟨ks, hks, rfl⟩
      · exact ⟨[Key.str (natKey j)],
          DescendantKeys.head hent, by simp⟩
      · exact ⟨Key.str (natKey j) :: ks,
          DescendantKeys.step hent hks, by simp⟩
  termination_by v => sizeOf v
  decreasing_by
    · have h1 := List.sizeOf_lt_of_mem hm
      have h2 : sizeOf (k, c) = 1 + sizeOf k + sizeOf c := rfl
      simp only [SVal.record.sizeOf_spec]
      omega
    · have h1 := List.sizeOf_lt_of_mem (List.get?_mem hjc)
      simp only [SVal.array.sizeOf_spec]
      omega

theorem mem_descendantsFields_of_mem {fs : List (JStr × SVal)} {k : JStr}
    {c : SVal} (hm : (k, c) ∈ fs) (p : List Key) :
    (p ++ [Key.str k]) ∈ descendantsFields p fs ∧
      ∀ x, x ∈ computeDescendantPaths (p ++ [Key.str k]) c →
        x ∈ descendantsFields p fs := by
  induction fs with
  | nil => cases hm
  | cons kc rest ih =>
      rcases List.mem_cons.mp hm with heq | hm2
      · cases heq
        constructor
        · simp [descendantsFields]
        · intro x hx
          simp only [descendantsFields, List.mem_cons, List.mem_append]
          exact Or.inr (Or.inl hx)
      · obtain ⟨h1, h2⟩ := ih hm2
        obtain ⟨k0, c0⟩ := kc
        constructor
        · simp only [descendantsFields, List.mem_cons, List.mem_append]
          exact Or.inr (Or.inr h1)
        · intro x hx
          simp only [descendantsFields, List.mem_cons, List.mem_append]
          exact Or.inr (Or.inr (h2 x hx))

theorem mem_descendantsElems_of_get {elems : List SVal} {j : Nat} {c : SVal}
    (hj : elems.get? j = some c) (p : List Key) (i : Nat) :
    (p ++ [Key.str (natKey (i + j))]) ∈ descendantsElems p i elems ∧
      ∀ x, x ∈ computeDescendantPaths
          (p ++ [Key.str (natKey (i + j))]) c →
        x ∈ descendantsElems p i elems := by
  induction elems generalizing i j with
  | nil => simp at hj
  | cons c0 rest ih =>
      cases j with
      | zero =>
          simp only [List.get?_cons_zero, Option.some.injEq] at hj
          subst hj
          constructor
          · simp [descendantsElems]
          · intro x hx
            simp only [descendantsElems, List.mem_cons, List.mem_append]
            exact Or.inr (Or.inl (by simpa using hx))
      | succ j2 =>
          simp only [List.get?_cons_succ] at hj
          obtain ⟨h1, h2⟩ := ih hj (i + 1)
          have harith : i + 1 + j2 = i + (j2 + 1) := by omega
          rw [harith] at h1 h2
          constructor
          · simp only [descendantsElems, List.mem_cons, List.mem_append]
            exact Or.inr (Or.inr h1)
          · intro x hx
            simp only [descendantsElems, List.mem_cons, List.mem_append]
            exact Or.inr (Or.inr (h2 x hx))

theorem computeDescendantPaths_complete {v : SVal} {ks : List Key}
    (h : DescendantKeys v ks) : ∀ p, p ++ ks ∈ computeDescendantPaths p v := by
  induction h with
  | head hm =>
      intro p
      rename_i v k c
      cases v with
      | record fields =>
          simp only [computeDescendantPaths]
          exact (mem_descendantsFields_of_mem hm p).1
      | array elems =>
          simp only [SVal.entries, List.mem_map] at hm
          obtain ⟨jc, hjc, heq⟩ := hm
          obtain ⟨j, c2⟩ := jc
          dsimp only at heq
          have hk : natKey j = k := congrArg Prod.fst heq
          have hcc : c2 = c := congrArg Prod.snd heq
          subst hcc
          have hj : elems.get? j = some c2 := by
            rw [List.get?_eq_getElem?]
            exact List.mk_mem_enum_iff_getElem?.mp hjc
          simp only [computeDescendantPaths]
          have h0 := (mem_descendantsElems_of_get hj p 0).1
          rw [← hk]
          simpa using h0
      | prim _ => simp [SVal.entries] at hm
      | blob _ => simp [SVal.entries] at hm
      | file _ _ => simp [SVal.entries] at hm
      | exotic => simp [SVal.entries] at hm
  | step hm hc ih =>
      intro p
      rename_i v k c ks2
      cases v with
      | record fields =>
          simp only [computeDescendantPaths]
          have hx := ih (p ++ [Key.str k])
          have := (mem_descendantsFields_of_mem hm p).2 _ (by simpa using hx)
          simpa using this
      | array elems =>
          simp only [SVal.entries, List.mem_map] at hm
          obtain ⟨jc, hjc, heq⟩ := hm
          obtain ⟨j, c2⟩ := jc
          dsimp only at heq
          have hk : natKey j = k := congrArg Prod.fst heq
          have hcc : c2 = c := congrArg Prod.snd heq
          subst hcc
          have hj : elems.get? j = some c2 := by
            rw [List.get?_eq_getElem?]
            exact List.mk_mem_enum_iff_getElem?.mp hjc
          simp only [computeDescendantPaths]
          have hx := ih (p ++ [Key.str k])
          have hlift := (mem_descendantsElems_of_get hj p 0).2
            (p ++ (Key.str k :: ks2))
          rw [Nat.zero_add, hk] at hlift
          exact hlift (by simpa using hx)
      | prim _ => simp [SVal.entries] at hm
      | blob _ => simp [SVal.entries] at hm
      | file _ _ => simp [SVal.entries] at hm
      | exotic => simp [SVal.entries] at hm

theorem noDescendantKeys_of_not_container {v : SVal}
    (h : isContainer v = false) (ks : List Key) : ¬ DescendantKeys v ks := by
  intro hd
  cases hd with
  | head hm => cases v <;> simp_all [SVal.entries, isContainer]
  | step hm hc => cases v <;> simp_all [SVal.entries, isContainer]

/-- C7: computePathLineage(p, v) contains exactly the strict ancestors of p
(root through immediate parent), p itself, and — when v is a container — the
descendant paths obtained by recursively walking the own enumerable keys of v;
a non-container value contributes no descendants. -/
theorem computePathLineage_spec (p q : List Key) (v : SVal) :
    (q ∈ computePathLineage p v ↔
      (q <+: p ∧ q ≠ p) ∨ q = p ∨
        ∃ ks, DescendantKeys v ks ∧ q = p ++ ks) ∧
    (isContainer v = false → ∀ ks, ¬ DescendantKeys v ks) := by
  constructor
  · unfold computePathLineage
    simp only [List.mem_append, List.mem_singleton]
    constructor
    · rintro ((h | rfl) | h)
      · exact Or.inl (mem_computeAncestorPaths.mp h)
      · exact Or.inr (Or.inl rfl)
      · exact Or.inr (Or.inr (computeDescendantPaths_sound v p q h))
    · rintro (h | rfl | ⟨ks, hks, rfl⟩)
      · exact Or.inl (Or.inl (mem_computeAncestorPaths.mpr h))
      · exact Or.inl (Or.inr rfl)
      · exact Or.inr (computeDescendantPaths_complete hks p)
  · exact fun h => noDescendantKeys_of_not_container h

/-- Witness for C7 at a concrete input: the record at path ["a"] with one
field "b" has ["a","b"] in its lineage via the descendant clause. -/
theorem computePathLineage_spec_witness :
    ([Key.str ['a'], Key.str ['b']] : List Key) ∈
      computePathLineage [Key.str ['a']]
        (SVal.record [(['b'], SVal.prim Prim.null)]) :=
  (computePathLineage_spec [Key.str ['a']] [Key.str ['a'], Key.str ['b']]
      (SVal.record [(['b'], SVal.prim Prim.null)])).1.mpr
    (Or.inr (Or.inr ⟨[Key.str ['b']],
      DescendantKeys.head (c := SVal.prim Prim.null)
        (by simp [SVal.entries]), rfl⟩))

/-! ### Path factory (src/utils/createPathFactory.ts) -/

/-- A path object produced by the factory: the key array plus an allocation
identifier standing for its JavaScript object identity (the factory gives
every newly allocated array a fresh id, so id equality models reference
equality). -/
structure PathObj where
  id : Nat
  keys : List Key
  deriving DecidableEq, Repr

/-- Arguments acceptable to path(...pathParts): a bare key, or any array of
keys — previously produced paths are arrays and are spliced in by the
Array.isArray branch. -/
inductive PathPart
  | key (k : Key)
  | list (ks : List Key)
  deriving DecidableEq, Repr

/-- Flattening loop of path(): push bare keys, spread arrays. -/
def flattenParts : List PathPart → List Key
  | [] => []
  | .key k :: rest => k :: flattenParts rest
  | .list ks :: rest => ks ++ flattenParts rest

/-- State of one factory: the canonicalPaths map (comma-joined string form of
a key sequence to the interned path object) and the allocation counter. -/
structure PFState where
  nextId : Nat
  table : List (JStr × PathObj)
  deriving DecidableEq, Repr

/-- Lookup in the canonicalPaths map. -/
def pfLookup : List (JStr × PathObj) → JStr → Option PathObj
  | [], _ => none
  | (k, po) :: rest, ks => if k = ks then some po else pfLookup rest ks

/-- Fresh factory state, as built by createPathFactory for each store. -/
def pfInit : PFState := ⟨0, []⟩

/-- Embeds path(...pathParts): flatten the parts, then intern by the
comma-joined string form — a hit returns the previously interned object, a
miss freezes and stores the newly built array. -/
def pfPath (s : PFState) (parts : List PathPart) : PathObj × PFState :=
  let ks := flattenParts parts
  let key := joined ks
  match pfLookup s.table key with
  | some po => (po, s)
  | none =>
      let po : PathObj := ⟨s.nextId, ks⟩
      (po, ⟨s.nextId + 1, (key, po) :: s.table⟩)

/-- Embeds fromFactory: canonicalPaths.get(String(path)) === path. -/
def fromFactory (s : PFState) (po : PathObj) : Bool :=
  match pfLookup s.table (joined po.keys) with
  | some po2 => po2 = po
  | none => false

/-- Reachability between factory states by an arbitrary sequence of further
path() calls. -/
inductive PFReaches : PFState → PFState → Prop
  | refl (s : PFState) : PFReaches s s
  | step (s : PFState) (parts : List PathPart) {s2 : PFState}
      (h : PFReaches (pfPath s parts).2 s2) : PFReaches s s2

theorem pfPath_hit {s : PFState} {parts : List PathPart} {po : PathObj}
    (h : pfLookup s.table (joined (flattenParts parts)) = some po) :
    pfPath s parts = (po, s) := by
  simp [pfPath, h]

theorem pfPath_binds (s : PFState) (parts : List PathPart) :
    pfLookup (pfPath s parts).2.table (joined (flattenParts parts)) =
      some (pfPath s parts).1 := by
  cases h : pfLookup s.table (joined (flattenParts parts)) with
  | some po => simp [pfPath_hit h, h]
  | none => simp [pfPath, h, pfLookup]

theorem pfPath_preserves {s : PFState} {k : JStr} {po : PathObj}
    (h : pfLookup s.table k = some po) (parts : List PathPart) :
    pfLookup (pfPath s parts).2.table k = some po := by
  cases h2 : pfLookup s.table (joined (flattenParts parts)) with
  | some po2 => simp [pfPath_hit h2, h]
  | none =>
      have hk : joined (flattenParts parts) ≠ k := by
        intro hk
        rw [hk, h] at h2
        cases h2
      simp [pfPath, h2, pfLookup, hk, h]

theorem pfReaches_preserves {s s2 : PFState} {k : JStr} {po : PathObj}
    (hr : PFReaches s s2) (h : pfLookup s.table k = some po) :
    pfLookup s2.table k = some po := by
  induction hr with
  | refl => exact h
  | step s parts h2 ih => exact ih (pfPath_preserves h parts)

/-- C5: two calls to the same factory whose flattened key sequences are equal
return the identical path object (reference identity), regardless of any
other calls made in between; and composition splices previously produced
paths, so that from a fresh factory path(path("a","b"), "c") is the very
object path("a","b","c") returns. -/
theorem pfPath_canonical :
    (∀ (s0 s2 : PFState) (parts1 parts2 : List PathPart),
      PFReaches (pfPath s0 parts1).2 s2 →
      flattenParts parts1 = flattenParts parts2 →
      (pfPath s2 parts2).1 = (pfPath s0 parts1).1) ∧
    (let a : PathPart := .key (.str ['a'])
     let b : PathPart := .key (.str ['b'])
     let c : PathPart := .key (.str ['c'])
     let r1 := pfPath pfInit [a, b]
     let r2 := pfPath r1.2 [.list r1.1.keys, c]
     let r3 := pfPath r2.2 [a, b, c]
     r2.1 = r3.1) := by
  constructor
  · intro s0 s2 parts1 parts2 hr hflat
    have h1 := pfPath_binds s0 parts1
    have h2 := pfReaches_preserves hr h1
    rw [hflat] at h2
    simp [pfPath_hit h2]
  · decide

/-- Witness for C5 at a concrete input: a second identical call on a fresh
factory returns the first call's object. -/
theorem pfPath_canonical_witness :
    (pfPath (pfPath pfInit [PathPart.key (.str ['x'])]).2
        [PathPart.key (.str ['x'])]).1 =
      (pfPath pfInit [PathPart.key (.str ['x'])]).1 :=
  pfPath_canonical.1 pfInit (pfPath pfInit [PathPart.key (.str ['x'])]).2
    [PathPart.key (.str ['x'])] [PathPart.key (.str ['x'])]
    (PFReaches.refl _) rfl

/-! ### Read manager (src/utils/createReadManager.ts) -/

/-- Kinds of complex twins allocated by cloneComplex for the read manager. -/
inductive CKind
  | record
  | array
  | blob (content : JStr)
  | file (content : JStr) (name : JStr)
  deriving DecidableEq, Repr

/-- Values returned by the read manager's memoizing clone: primitives pass
through; every complex twin carries the allocation identifier of the built
object (object identity), whether Object.freeze has been applied to it, and
its children (Object.entries order, string keys). -/
inductive CVal
  | prim (p : Prim)
  | node (id : Nat) (frozen : Bool) (kind : CKind)
      (children : List (JStr × CVal))
  deriving Repr

/-- State of one read manager: the frozenClones map (string form of a path to
the memoized frozen clone) plus the allocation counter for object
identities. -/
structure RMState where
  nextId : Nat
  cache : List (JStr × CVal)

/-- Lookup in the frozenClones map. -/
def rmLookup : List (JStr × CVal) → JStr → Option CVal
  | [], _ => none
  | (k, c) :: rest, ks => if k = ks then some c else rmLookup rest ks

/-- Map.set on the frozenClones map (replace or add). -/
def rmInsert : List (JStr × CVal) → JStr → CVal → List (JStr × CVal)
  | [], ks, c => [(ks, c)]
  | (k, c0) :: rest, ks, c =>
      if k = ks then (k, c) :: rest else (k, c0) :: rmInsert rest ks c

/-- Map.delete on the frozenClones map. -/
def rmDelete : List (JStr × CVal) → JStr → List (JStr × CVal)
  | [], _ => []
  | (k, c0) :: rest, ks =>
      if k = ks then rest else (k, c0) :: rmDelete rest ks

/-- Fresh read manager state, as built by createReadManager for each store. -/
def rmInit : RMState := ⟨0, []⟩

mutual

/-- Embeds the read manager's clone(path, value): primitives pass through; a
cache hit under String(path) returns the memoized clone unchanged; otherwise a
structural twin is allocated (cloneComplex), container children are produced
recursively through this same memoizing clone under the extended path, the
twin is frozen, stored under String(path), and returned.  cloneComplex throws
Uncloneable on values outside the StoreValue union (exotic); the error leaves
the entries already cached by inner recursive calls in place, as the thrown
exception does in the source. -/
def rmClone (s : RMState) (path : List Key) :
    SVal → Except CloneErr CVal × RMState
  | .prim p => (.ok (.prim p), s)
  | .record fields =>
      match rmLookup s.cache (joined path) with
      | some c => (.ok c, s)
      | none =>
          match rmCloneFields ⟨s.nextId + 1, s.cache⟩ path fields with
          | (.error e, s2) => (.error e, s2)
          | (.ok cs, s2) =>
              let result : CVal := .node s.nextId true .record cs
              (.ok result, ⟨s2.nextId, rmInsert s2.cache (joined path) result⟩)
  | .array elems =>
      match rmLookup s.cache (joined path) with
      | some c => (.ok c, s)
      | none =>
          match rmCloneElems ⟨s.nextId + 1, s.cache⟩ path 0 elems with
          | (.error e, s2) => (.error e, s2)
          | (.ok cs, s2) =>
              let result : CVal := .node s.nextId true .array cs
              (.ok result, ⟨s2.nextId, rmInsert s2.cache (joined path) result⟩)
  | .blob content =>
      match rmLookup s.cache (joined path) with
      | some c => (.ok c, s)
      | none =>
          let result : CVal := .node s.nextId true (.blob content) []
          (.ok result, ⟨s.nextId + 1, rmInsert s.cache (joined path) result⟩)
  | .file content name =>
      match rmLookup s.cache (joined path) with
      | some c => (.ok c, s)
      | none =>
          let result : CVal := .node s.nextId true (.file content name) []
          (.ok result, ⟨s.nextId + 1, rmInsert s.cache (joined path) result⟩)
  | .exotic =>
      match rmLookup s.cache (joined path) with
      | some c => (.ok c, s)
      | none => (.error .uncloneable, s)

/-- Children of a record twin, produced left to right through the memoizing
clone under path ++ [key]. -/
def rmCloneFields (s : RMState) (path : List Key) :
    List (JStr × SVal) → Except CloneErr (List (JStr × CVal)) × RMState
  | [] => (.ok [], s)
  | (k, v) :: rest =>
      match rmClone s (path ++ [Key.str k]) v with
      | (.error e, s2) => (.error e, s2)
      | (.ok c, s2) =>
          match rmCloneFields s2 path rest with
          | (.error e, s3) => (.error e, s3)
          | (.ok cs, s3) => (.ok ((k, c) :: cs), s3)

/-- Children of an array twin: element i is produced through the memoizing
clone under path ++ [String(i)]. -/
def rmCloneElems (s : RMState) (path : List Key) (i : Nat) :
    List SVal → Except CloneErr (List (JStr × CVal)) × RMState
  | [] => (.ok [], s)
  | v :: rest =>
      match rmClone s (path ++ [Key.str (natKey i)]) v with
      | (.error e, s2) => (.error e, s2)
      | (.ok c, s2) =>
          match rmCloneElems s2 path (i + 1) rest with
          | (.error e, s3) => (.error e, s3)
          | (.ok cs, s3) => (.ok ((natKey i, c) :: cs), s3)

end

/-- Embeds the read manager's reset(): frozenClones.clear(). -/
def rmReset (s : RMState) : RMState := ⟨s.nextId, []⟩

/-- Embeds the read manager's reconcile(paths): delete the entry under
String(path) for every path in the set. -/
def rmReconcile (s : RMState) (paths : List (List Key)) : RMState :=
  ⟨s.nextId, paths.foldl (fun c p => rmDelete c (joined p)) s.cache⟩

mutual

/-- Every node of the clone (the value itself and all reachable children) has
been frozen. -/
def DeepFrozen : CVal → Bool
  | .prim _ => true
  | .node _ frozen _ children => frozen && DeepFrozenChildren children

/-- Pointwise DeepFrozen over children. -/
def DeepFrozenChildren : List (JStr × CVal) → Bool
  | [] => true
  | (_, c) :: rest => DeepFrozen c && DeepFrozenChildren rest

end

/-- Every clone memoized in the cache is deep-frozen. -/
def CacheFrozen : List (JStr × CVal) → Prop :=
  fun cache => ∀ k c, rmLookup cache k = some c → DeepFrozen c = true

theorem rmLookup_insert_self (cache : List (JStr × CVal)) (ks : JStr)
    (c : CVal) : rmLookup (rmInsert cache ks c) ks = some c := by
  induction cache with
  | nil => simp [rmInsert, rmLookup]
  | cons kc rest ih =>
      obtain ⟨k0, c0⟩ := kc
      by_cases h : k0 = ks
      · simp [rmInsert, rmLookup, h]
      · simp [rmInsert, rmLookup, h, ih]

theorem rmLookup_insert_ne {k ks : JStr} (hne : k ≠ ks)
    (cache : List (JStr × CVal)) (c : CVal) :
    rmLookup (rmInsert cache ks c) k = rmLookup cache k := by
  induction cache with
  | nil =>
      simp only [rmInsert, rmLookup]
      rw [if_neg (fun h => hne h.symm)]
  | cons kc rest ih =>
      obtain ⟨k0, c0⟩ := kc
      by_cases h : k0 = ks
      · have hk0 : k0 ≠ k := fun h2 => hne (h2 ▸ h)
        simp [rmInsert, rmLookup, h, hk0, Ne.symm hne]
      · by_cases h2 : k0 = k
        · simp [rmInsert, rmLookup, h, h2, hne]
        · simp [rmInsert, rmLookup, h, h2, ih]

theorem rmLookup_delete_ne {k ks : JStr} (hne : k ≠ ks)
    (cache : List (JStr × CVal)) :
    rmLookup (rmDelete cache ks) k = rmLookup cache k := by
  induction cache with
  | nil => simp [rmDelete]
  | cons kc rest ih =>
      obtain ⟨k0, c0⟩ := kc
      by_cases h : k0 = ks
      · subst h
        have : k0 ≠ k := fun h2 => hne h2.symm
        simp [rmDelete, rmLookup, this]
      · by_cases h2 : k0 = k
        · simp [rmDelete, rmLookup, h, h2, hne]
        · simp [rmDelete, rmLookup, h, h2, ih]

theorem rmReconcile_preserves_ne {k : JStr} {paths : List (List Key)}
    (hne : ∀ p ∈ paths, joined p ≠ k) (s : RMState) :
    rmLookup (rmReconcile s paths).cache k = rmLookup s.cache k := by
  unfold rmReconcile
  induction paths generalizing s with
  | nil => rfl
  | cons p rest ih =>
      have h1 : rmLookup (rmDelete s.cache (joined p)) k = rmLookup s.cache k :=
        rmLookup_delete_ne (fun h => hne p (List.mem_cons_self p rest) h.symm) _
      have h2 := ih (fun q hq => hne q (List.mem_cons_of_mem p hq))
        ⟨s.nextId, rmDelete s.cache (joined p)⟩
      simpa [h1] using h2

mutual

theorem rmClone_preserves : ∀ (v : SVal) (s : RMState) (path : List Key)
    (k : JStr) (c : CVal), rmLookup s.cache k = some c →
    rmLookup (rmClone s path v).2.cache k = some c
  | .prim _, _, _, _, _, h => h
  | .record fields, s, path, k, c, h => by
      cases hl : rmLookup s.cache (joined path) with
      | some c0 => simpa [rmClone, hl] using h
      | none =>
          have hk : k ≠ joined path := by
            intro he
            rw [he, hl] at h
            cases h
          have h2 := rmCloneFields_preserves fields
            ⟨s.nextId + 1, s.cache⟩ path k c h
          rcases hres : rmCloneFields ⟨s.nextId + 1, s.cache⟩ path fields
            with ⟨r, s2⟩
          rw [hres] at h2
          cases r with
          | error e => simpa [rmClone, hl, hres] using h2
          | ok cs =>
              simp only [rmClone, hl, hres]
              exact (rmLookup_insert_ne hk s2.cache _).symm ▸ h2
  | .array elems, s, path, k, c, h => by
      cases hl : rmLookup s.cache (joined path) with
      | some c0 => simpa [rmClone, hl] using h
      | none =>
          have hk : k ≠ joined path := by
            intro he
            rw [he, hl] at h
            cases h
          have h2 := rmCloneElems_preserves elems
            ⟨s.nextId + 1, s.cache⟩ path 0 k c h
          rcases hres : rmCloneElems ⟨s.nextId + 1, s.cache⟩ path 0 elems
            with ⟨r, s2⟩
          rw [hres] at h2
          cases r with
          | error e => simpa [rmClone, hl, hres] using h2
          | ok cs =>
              simp only [rmClone, hl, hres]
              exact (rmLookup_insert_ne hk s2.cache _).symm ▸ h2
  | .blob content, s, path, k, c, h => by
      cases hl : rmLookup s.cache (joined path) with
      | some c0 => simpa [rmClone, hl] using h
      | none =>
          have hk : k ≠ joined path := by
            intro he
            rw [he, hl] at h
            cases h
          simp only [rmClone, hl]
          exact (rmLookup_insert_ne hk s.cache _).symm ▸ h
  | .file content name, s, path, k, c, h => by
      cases hl : rmLookup s.cache (joined path) with
      | some c0 => simpa [rmClone, hl] using h
      | none =>
          have hk : k ≠ joined path := by
            intro he
            rw [he, hl] at h
            cases h
          simp only [rmClone, hl]
          exact (rmLookup_insert_ne hk s.cache _).symm ▸ h
  | .exotic, s, path, k, c, h => by
      cases hl : rmLookup s.cache (joined path) with
      | some c0 => simpa [rmClone, hl] using h
      | none => simpa [rmClone, hl] using h

theorem rmCloneFields_preserves : ∀ (fs : List (JStr × SVal)) (s : RMState)
    (path : List Key) (k : JStr) (c : CVal), rmLookup s.cache k = some c →
    rmLookup (rmCloneFields s path fs).2.cache k = some c
  | [], _, _, _, _, h => h
  | (k0, v) :: rest, s, path, k, c, h => by
      have h1 := rmClone_preserves v s (path ++ [Key.str k0]) k c h
      rcases hres : rmClone s (path ++ [Key.str k0]) v with ⟨r, s2⟩
      rw [hres] at h1
      cases r with
      | error e => simpa [rmCloneFields, hres] using h1
      | ok c2 =>
          have h2 := rmCloneFields_preserves rest s2 path k c h1
          rcases hres2 : rmCloneFields s2 path rest with ⟨r2, s3⟩
          rw [hres2] at h2
          cases r2 with
          | error e => simpa [rmCloneFields, hres, hres2] using h2
          | ok cs => simpa [rmCloneFields, hres, hres2] using h2

theorem rmCloneElems_preserves : ∀ (vs : List SVal) (s : RMState)
    (path : List Key) (i : Nat) (k : JStr) (c : CVal),
    rmLookup s.cache k = some c →
    rmLookup (rmCloneElems s path i vs).2.cache k = some c
  | [], _, _, _, _, _, h => h
  | v :: rest, s, path, i, k, c, h => by
      have h1 := rmClone_preserves v s
        (path ++ [Key.str (natKey i)]) k c h
      rcases hres : rmClone s (path ++ [Key.str (natKey i)]) v
        with ⟨r, s2⟩
      rw [hres] at h1
      cases r with
      | error e => simpa [rmCloneElems, hres] using h1
      | ok c2 =>
          have h2 := rmCloneElems_preserves rest s2 path (i + 1) k c h1
          rcases hres2 : rmCloneElems s2 path (i + 1) rest with ⟨r2, s3⟩
          rw [hres2] at h2
          cases r2 with
          | error e => simpa [rmCloneElems, hres, hres2] using h2
          | ok cs => simpa [rmCloneElems, hres, hres2] using h2

end

theorem rmClone_hit {s : RMState} {path : List Key} {v : SVal} {c : CVal}
    (hprim : isPrimitive v = false)
    (h : rmLookup s.cache (joined path) = some c) :
    rmClone s path v = (.ok c, s) := by
  cases v with
  | prim p => simp [isPrimitive] at hprim
  | record fields => simp [rmClone, h]
  | array elems => simp [rmClone, h]
  | blob content => simp [rmClone, h]
  | file content name => simp [rmClone, h]
  | exotic => simp [rmClone, h]

theorem rmClone_binds {s s2 : RMState} {path : List Key} {v : SVal} {c : CVal}
    (hprim : isPrimitive v = false)
    (h : rmClone s path v = (.ok c, s2)) :
    rmLookup s2.cache (joined path) = some c := by
  cases v with
  | prim p => simp [isPrimitive] at hprim
  | record fields =>
      cases hl : rmLookup s.cache (joined path) with
      | some c0 =>
          rw [rmClone_hit hprim hl] at h
          cases h
          exact hl
      | none =>
          rcases hres : rmCloneFields ⟨s.nextId + 1, s.cache⟩ path fields
            with ⟨r, s3⟩
          cases r with
          | error e => simp [rmClone, hl, hres] at h
          | ok cs =>
              simp only [rmClone, hl, hres] at h
              obtain ⟨hc, hs⟩ := Prod.mk.injEq .. ▸ h
              cases hc
              rw [← hs]
              exact rmLookup_insert_self s3.cache (joined path) _
  | array elems =>
      cases hl : rmLookup s.cache (joined path) with
      | some c0 =>
          rw [rmClone_hit hprim hl] at h
          cases h
          exact hl
      | none =>
          rcases hres : rmCloneElems ⟨s.nextId + 1, s.cache⟩ path 0 elems
            with ⟨r, s3⟩
          cases r with
          | error e => simp [rmClone, hl, hres] at h
          | ok cs =>
              simp only [rmClone, hl, hres] at h
              obtain ⟨hc, hs⟩ := Prod.mk.injEq .. ▸ h
              cases hc
              rw [← hs]
              exact rmLookup_insert_self s3.cache (joined path) _
  | blob content =>
      cases hl : rmLookup s.cache (joined path) with
      | some c0 =>
          rw [rmClone_hit hprim hl] at h
          cases h
          exact hl
      | none =>
          simp only [rmClone, hl] at h
          obtain ⟨hc, hs⟩ := Prod.mk.injEq .. ▸ h
          cases hc
          rw [← hs]
          exact rmLookup_insert_self s.cache (joined path) _
  | file content name =>
      cases hl : rmLookup s.cache (joined path) with
      | some c0 =>
          rw [rmClone_hit hprim hl] at h
          cases h
          exact hl
      | none =>
          simp only [rmClone, hl] at h
          obtain ⟨hc, hs⟩ := Prod.mk.injEq .. ▸ h
          cases hc
          rw [← hs]
          exact rmLookup_insert_self s.cache (joined path) _
  | exotic =>
      cases hl : rmLookup s.cache (joined path) with
      | some c0 =>
          rw [rmClone_hit hprim hl] at h
          cases h
          exact hl
      | none => simp [rmClone, hl] at h

theorem cacheFrozen_insert {cache : List (JStr × CVal)} {k : JStr} {c : CVal}
    (hf : CacheFrozen cache) (hc : DeepFrozen c = true) :
    CacheFrozen (rmInsert cache k c) := by
  intro k2 c2 h2
  by_cases hk : k2 = k
  · rw [hk, rmLookup_insert_self] at h2
    cases h2
    exact hc
  · rw [rmLookup_insert_ne hk] at h2
    exact hf k2 c2 h2

mutual

theorem rmClone_frozen : ∀ (v : SVal) (s : RMState) (path : List Key),
    CacheFrozen s.cache →
    CacheFrozen (rmClone s path v).2.cache ∧
      ∀ c, (rmClone s path v).1 = .ok c → DeepFrozen c = true
  | .prim _, s, path, hf => ⟨hf, fun c hc => by cases hc; rfl⟩
  | .record fields, s, path, hf => by
      cases hl : rmLookup s.cache (joined path) with
      | some c0 =>
          refine ⟨by simpa [rmClone, hl] using hf, fun c hc => ?_⟩
          simp only [rmClone, hl] at hc
          cases hc
          exact hf _ _ hl
      | none =>
          have hrec := rmCloneFields_frozen fields
            ⟨s.nextId + 1, s.cache⟩ path hf
          rcases hres : rmCloneFields ⟨s.nextId + 1, s.cache⟩ path fields
            with ⟨r, s2⟩
          rw [hres] at hrec
          cases r with
          | error e =>
              exact ⟨by simpa [rmClone, hl, hres] using hrec.1,
                fun c hc => by simp [rmClone, hl, hres] at hc⟩
          | ok cs =>
              have hcs : DeepFrozenChildren cs = true := hrec.2 cs rfl
              have hnode : DeepFrozen (.node s.nextId true .record cs) = true := by
                simp [DeepFrozen, hcs]
              refine ⟨?_, fun c hc => ?_⟩
              · simpa [rmClone, hl, hres] using
                  cacheFrozen_insert hrec.1 hnode
              · simp only [rmClone, hl, hres] at hc
                cases hc
                exact hnode
  | .array elems, s, path, hf => by
      cases hl : rmLookup s.cache (joined path) with
      | some c0 =>
          refine ⟨by simpa [rmClone, hl] using hf, fun c hc => ?_⟩
          simp only [rmClone, hl] at hc
          cases hc
          exact hf _ _ hl
      | none =>
          have hrec := rmCloneElems_frozen elems
            ⟨s.nextId + 1, s.cache⟩ path 0 hf
          rcases hres : rmCloneElems ⟨s.nextId + 1, s.cache⟩ path 0 elems
            with ⟨r, s2⟩
          rw [hres] at hrec
          cases r with
          | error e =>
              exact ⟨by simpa [rmClone, hl, hres] using hrec.1,
                fun c hc => by simp [rmClone, hl, hres] at hc⟩
          | ok cs =>
              have hcs : DeepFrozenChildren cs = true := hrec.2 cs rfl
              have hnode : DeepFrozen (.node s.nextId true .array cs) = true := by
                simp [DeepFrozen, hcs]
              refine ⟨?_, fun c hc => ?_⟩
              · simpa [rmClone, hl, hres] using
                  cacheFrozen_insert hrec.1 hnode
              · simp only [rmClone, hl, hres] at hc
                cases hc
                exact hnode
  | .blob content, s, path, hf => by
      cases hl : rmLookup s.cache (joined path) with
      | some c0 =>
          refine ⟨by simpa [rmClone, hl] using hf, fun c hc => ?_⟩
          simp only [rmClone, hl] at hc
          cases hc
          exact hf _ _ hl
      | none =>
          have hnode : DeepFrozen (.node s.nextId true (.blob content) []) = true := by
            simp [DeepFrozen, DeepFrozenChildren]
          refine ⟨?_, fun c hc => ?_⟩
          · simpa [rmClone, hl] using cacheFrozen_insert hf hnode
          · simp only [rmClone, hl] at hc
            cases hc
            exact hnode
  | .file content name, s, path, hf => by
      cases hl : rmLookup s.cache (joined path) with
      | some c0 =>
          refine ⟨by simpa [rmClone, hl] using hf, fun c hc => ?_⟩
          simp only [rmClone, hl] at hc
          cases hc
          exact hf _ _ hl
      | none =>
          have hnode : DeepFrozen (.node s.nextId true (.file content name) []) = true := by
            simp [DeepFrozen, DeepFrozenChildren]
          refine ⟨?_, fun c hc => ?_⟩
          · simpa [rmClone, hl] using cacheFrozen_insert hf hnode
          · simp only [rmClone, hl] at hc
            cases hc
            exact hnode
  | .exotic, s, path, hf => by
      cases hl : rmLookup s.cache (joined path) with
      | some c0 =>
          refine ⟨by simpa [rmClone, hl] using hf, fun c hc => ?_⟩
          simp only [rmClone, hl] at hc
          cases hc
          exact hf _ _ hl
      | none =>
          exact ⟨by simpa [rmClone, hl] using hf,
            fun c hc => by simp [rmClone, hl] at hc⟩

theorem rmCloneFields_frozen : ∀ (fs : List (JStr × SVal)) (s : RMState)
    (path : List Key), CacheFrozen s.cache →
    CacheFrozen (rmCloneFields s path fs).2.cache ∧
      ∀ cs, (rmCloneFields s path fs).1 = .ok cs →
        DeepFrozenChildren cs = true
  | [], s, path, hf => ⟨hf, fun cs hc => by cases hc; rfl⟩
  | (k, v) :: rest, s, path, hf => by
      have h1 := rmClone_frozen v s (path ++ [Key.str k]) hf
      rcases hres : rmClone s (path ++ [Key.str k]) v with ⟨r, s2⟩
      rw [hres] at h1
      cases r with
      | error e =>
          exact ⟨by simpa [rmCloneFields, hres] using h1.1,
            fun cs hc => by simp [rmCloneFields, hres] at hc⟩
      | ok c =>
          have hc : DeepFrozen c = true := h1.2 c rfl
          have h2 := rmCloneFields_frozen rest s2 path h1.1
          rcases hres2 : rmCloneFields s2 path rest with ⟨r2, s3⟩
          rw [hres2] at h2
          cases r2 with
          | error e =>
              exact ⟨by simpa [rmCloneFields, hres, hres2] using h2.1,
                fun cs hcs => by simp [rmCloneFields, hres, hres2] at hcs⟩
          | ok cs2 =>
              refine ⟨by simpa [rmCloneFields, hres, hres2] using h2.1,
                fun cs hcs => ?_⟩
              simp only [rmCloneFields, hres, hres2] at hcs
              cases hcs
              simp [DeepFrozenChildren, hc, h2.2 cs2 rfl]

theorem rmCloneElems_frozen : ∀ (vs : List SVal) (s : RMState)
    (path : List Key) (i : Nat), CacheFrozen s.cache →
    CacheFrozen (rmCloneElems s path i vs).2.cache ∧
      ∀ cs, (rmCloneElems s path i vs).1 = .ok cs →
        DeepFrozenChildren cs = true
  | [], s, path, i, hf => ⟨hf, fun cs hc => by cases hc; rfl⟩
  | v :: rest, s, path, i, hf => by
      have h1 := rmClone_frozen v s (path ++ [Key.str (natKey i)]) hf
      rcases hres : rmClone s (path ++ [Key.str (natKey i)]) v with ⟨r, s2⟩
      rw [hres] at h1
      cases r with
      | error e =>
          exact ⟨by simpa [rmCloneElems, hres] using h1.1,
            fun cs hc => by simp [rmCloneElems, hres] at hc⟩
      | ok c =>
          have hc : DeepFrozen c = true := h1.2 c rfl
          have h2 := rmCloneElems_frozen rest s2 path (i + 1) h1.1
          rcases hres2 : rmCloneElems s2 path (i + 1) rest with ⟨r2, s3⟩
          rw [hres2] at h2
          cases r2 with
          | error e =>
              exact ⟨by simpa [rmCloneElems, hres, hres2] using h2.1,
                fun cs hcs => by simp [rmCloneElems, hres, hres2] at hcs⟩
          | ok cs2 =>
              refine ⟨by simpa [rmCloneElems, hres, hres2] using h2.1,
                fun cs hcs => ?_⟩
              simp only [rmCloneElems, hres, hres2] at hcs
              cases hcs
              simp [DeepFrozenChildren, hc, h2.2 cs2 rfl]

end

/-- Sequences of read-manager operations that never evict the cache entry for
the string key of interest: any further clone calls, and reconcile calls whose
path set contains no path with that string form; reset (which clears
everything) is excluded. -/
inductive RMOpsOK (key : JStr) : RMState → RMState → Prop
  | refl (s : RMState) : RMOpsOK key s s
  | cloneStep (s : RMState) (path : List Key) (v : SVal) {s2 : RMState}
      (h : RMOpsOK key (rmClone s path v).2 s2) : RMOpsOK key s s2
  | reconcileStep (s : RMState) (paths : List (List Key))
      (hne : ∀ p ∈ paths, joined p ≠ key) {s2 : RMState}
      (h : RMOpsOK key (rmReconcile s paths) s2) : RMOpsOK key s s2

theorem rmOpsOK_preserves {key : JStr} {s s2 : RMState} {c : CVal}
    (hops : RMOpsOK key s s2) (h : rmLookup s.cache key = some c) :
    rmLookup s2.cache key = some c := by
  induction hops with
  | refl => exact h
  | cloneStep s path v h2 ih => exact ih (rmClone_preserves v s path key c h)
  | reconcileStep s paths hne h2 ih =>
      refine ih ?_
      rw [rmReconcile_preserves_ne (fun p hp => hne p hp) s]
      exact h

/-- C6: for a non-primitive value v, once the read manager's clone(p, v) has
produced a frozen clone c, a second clone(p, v) call returns the very same
object c (reference identity, modelled by the allocation id carried in c) and
leaves the state untouched, provided no intervening reconcile covered a path
whose string form equals that of p and no reset intervened; and c is
deep-frozen. -/
theorem rmClone_memoized {s0 s1 s2 : RMState} {p : List Key} {v : SVal}
    {c : CVal}
    (hprim : isPrimitive v = false)
    (hfrozen : CacheFrozen s0.cache)
    (h1 : rmClone s0 p v = (.ok c, s1))
    (hops : RMOpsOK (joined p) s1 s2) :
    rmClone s2 p v = (.ok c, s2) ∧ DeepFrozen c = true := by
  have hbind := rmClone_binds hprim h1
  have hbind2 := rmOpsOK_preserves hops hbind
  refine ⟨rmClone_hit hprim hbind2, ?_⟩
  have := (rmClone_frozen v s0 p hfrozen).2 c (by rw [h1])
  exact this

/-- Witness for C6 at a concrete input: cloning a one-field record twice on a
fresh read manager returns the identical allocated node, which is
deep-frozen. -/
theorem rmClone_memoized_witness :
    rmClone (rmClone rmInit [] (SVal.record [(['a'], .prim .null)])).2 []
        (SVal.record [(['a'], .prim .null)]) =
      (.ok (.node 0 true .record [(['a'], CVal.prim .null)]),
        (rmClone rmInit [] (SVal.record [(['a'], .prim .null)])).2) ∧
      DeepFrozen (.node 0 true .record [(['a'], CVal.prim .null)]) = true :=
  @rmClone_memoized rmInit
    (rmClone rmInit [] (SVal.record [(['a'], .prim .null)])).2
    (rmClone rmInit [] (SVal.record [(['a'], .prim .null)])).2 []
    (SVal.record [(['a'], .prim .null)])
    (.node 0 true .record [(['a'], CVal.prim .null)])
    rfl (fun k c h => by simp [rmInit, rmLookup] at h) rfl (RMOpsOK.refl _)

/-- C9: the path factory interns by the comma-joined string form, so distinct
key sequences whose joined forms coincide collapse onto one object:
path("a,b") and path("a","b") return the identical interned object (the one
allocated first, whose key array is ["a,b"]), as do path("1") and path(1);
fromFactory accepts the shared object as canonical for both sequences; and the
read manager caches clones of both spellings under the single shared string
key, so a reconcile phrased with one spelling also evicts the clone stored
under the other. -/
theorem pathFactory_string_collision :
    (let r1 := pfPath pfInit [.key (.str ['a', ',', 'b'])]
     let r2 := pfPath r1.2 [.key (.str ['a']), .key (.str ['b'])]
     r2.1 = r1.1 ∧ fromFactory r2.2 r1.1 = true) ∧
    (let q1 := pfPath pfInit [.key (.str ['1'])]
     let q2 := pfPath q1.2 [.key (.num 1)]
     q2.1 = q1.1) ∧
    (let v : SVal := .record []
     let c1 := rmClone rmInit [Key.str ['a', ',', 'b']] v
     let c2 := rmClone c1.2 [Key.str ['a'], Key.str ['b']] v
     c2.1 = c1.1 ∧ c2.2 = c1.2 ∧
       rmLookup (rmReconcile c2.2 [[Key.str ['a'], Key.str ['b']]]).cache
         (joined [Key.str ['a', ',', 'b']]) = none) :=
  ⟨⟨rfl, rfl⟩, rfl, rfl, rfl, rfl⟩

/-! ### State container engine (src/createStore.ts) -/

/-- Property write on record fields: replace in place when the key exists,
else append (JS property insertion order). -/
def setField : List (JStr × SVal) → JStr → SVal → List (JStr × SVal)
  | [], k, x => [(k, x)]
  | (k0, v0) :: rest, k, x =>
      if k0 = k then (k0, x) :: rest else (k0, v0) :: setField rest k x

/-- Property delete on record fields. -/
def removeField : List (JStr × SVal) → JStr → List (JStr × SVal)
  | [], _ => []
  | (k0, v0) :: rest, k =>
      if k0 = k then rest else (k0, v0) :: removeField rest k

/-- Reflect.set(container, key, x).  On primitives and opaque values the
write boxes and is discarded (JS).  Array writes beyond the dense range and
to length are outside the dense-array model and leave the value unchanged. -/
def setChild (v : SVal) (k : Key) (x : SVal) : SVal :=
  match v with
  | .record fields => .record (setField fields k.jsStr x)
  | .array elems =>
      match parseIndex k.jsStr with
      | some i =>
          if i < elems.length then .array (elems.set i x)
          else if i = elems.length then .array (elems ++ [x])
          else v
      | none => v
  | _ => v

/-- Reflect.deleteProperty(container, key).  Deleting an array index leaves a
hole in JS, which the dense model does not represent (no theorem exercises
it): the element becomes null here. -/
def deleteChild (v : SVal) (k : Key) : SVal :=
  match v with
  | .record fields => .record (removeField fields k.jsStr)
  | .array elems =>
      match parseIndex k.jsStr with
      | some i =>
          if i < elems.length then .array (elems.set i (.prim .null)) else v
      | none => v
  | _ => v

/-- In-place mutation of the tree: replace the value at a path (callers have
already resolved the parent container). -/
def svSetAt : SVal → List Key → SVal → SVal
  | _, [], x => x
  | v, [k], x => setChild v k x
  | v, k :: rest, x =>
      match svLookup v k with
      | some c => setChild v k (svSetAt c rest x)
      | none => v

/-- In-place deletion of the key at the end of a path. -/
def svDeleteAt : SVal → List Key → SVal
  | v, [] => v
  | v, [k] => deleteChild v k
  | v, k :: rest =>
      match svLookup v k with
      | some c => setChild v k (svDeleteAt c rest)
      | none => v

mutual

/-- Structure of a read-manager clone, forgetting identities and frozenness
(used where the source hands a clone to structural code such as
computePathLineage). -/
def CVal.toSVal : CVal → SVal
  | .prim p => .prim p
  | .node _ _ .record children => .record (childrenToFields children)
  | .node _ _ .array children => .array (childrenToElems children)
  | .node _ _ (.blob c) _ => .blob c
  | .node _ _ (.file c n) _ => .file c n

/-- Pointwise toSVal over record children. -/
def childrenToFields : List (JStr × CVal) → List (JStr × SVal)
  | [] => []
  | (k, c) :: rest => (k, c.toSVal) :: childrenToFields rest

/-- Pointwise toSVal over array children (entry keys drop away). -/
def childrenToElems : List (JStr × CVal) → List SVal
  | [] => []
  | (_, c) :: rest => c.toSVal :: childrenToElems rest

end

/-- Store events (src/types and the createXxxEvent constructors); every event
is deep-frozen on construction in the source, which the immutable model needs
no flag for.  Value payloads are read-manager clones; prevValue payloads of
Set and Remove are the detached previous values straight from the tree, while
Update carries the read-manager clone taken before the updater ran. -/
inductive Event
  | init (state : CVal)
  | get (path : PathObj) (value : CVal) (meta : Option SVal)
  | set (path : PathObj) (prevValue : Option SVal) (value : CVal)
      (meta : Option SVal)
  | update (path : PathObj) (prevValue : CVal) (value : CVal)
      (meta : Option SVal)
  | remove (path : PathObj) (prevValue : SVal) (meta : Option SVal)
  | txn (events : List Event) (meta : Option SVal)
  deriving Repr

/-- Engine errors, one constructor per distinct throw site message of
createStore.ts and its utils: invalidPath ("You must use paths created with
store.path"), pathNotFound ("... does not exist"), noContainer ("the state
tree does not have a container"), cannotRemoveRoot ("remove must be called
with path.length >= 1"), nestedWrite ("An update cannot include other
writes"), txnDuringUpdate ("Cannot run a transaction during an update"),
concurrentTxn ("Only one transaction can run at a time"), subMutation
("Cannot subscribe/unsubscribe during an update or transaction"), the clone
errors, and userThrow for exceptions raised by caller-supplied updater code.
fuel is an artifact of the bounded-depth evaluator and is never produced at
the depths the theorems run. -/
inductive Err
  | invalidPath
  | pathNotFound
  | noContainer
  | cannotRemoveRoot
  | nestedWrite
  | txnDuringUpdate
  | concurrentTxn
  | subMutation
  | cloneErr (e : CloneErr)
  | userThrow
  | fuel
  deriving DecidableEq, Repr

mutual

/-- Operations a caller (or a transaction body, or an updater) can issue
against the store handle. -/
inductive Op
  | oget (p : PathObj) (meta : Option SVal)
  | oset (p : PathObj) (v : SVal) (meta : Option SVal)
  | oupdate (p : PathObj) (u : Upd) (meta : Option SVal)
  | oremove (p : PathObj) (meta : Option SVal)
  | otxn (body : List Op) (meta : Option SVal)

/-- Updaters: `pure f` models user code that mutates the live value it was
handed into `(f live).1` and returns `(f live).2` (none = undefined, in which
case the source falls back to the mutated argument); `throws` models an
updater that raises; `issuing ops f` first invokes further store operations
(whose exceptions propagate out of the updater) and then behaves as `pure f`.
In the model the issued operations run before the in-place mutation is
applied; during a non-transactional update issued writes throw before
touching state, and during a transaction they are merely enqueued, so this
ordering convention is observationally faithful for the runs below. -/
inductive Upd
  | pure (f : SVal → SVal × Option SVal)
  | throws
  | issuing (ops : List Op) (f : SVal → SVal × Option SVal)

end

/-- A deferred write captured by makeTransactionAware: the writer together
with its arguments. -/
inductive PendingWrite
  | pset (p : PathObj) (v : SVal) (meta : Option SVal)
  | pupdate (p : PathObj) (u : Upd) (meta : Option SVal)
  | premove (p : PathObj) (meta : Option SVal)

/-- Path argument captured in a pending write. -/
def PendingWrite.path : PendingWrite → PathObj
  | .pset p _ _ => p
  | .pupdate p _ _ => p
  | .premove p _ => p

/-- The closed-over mutable state of one createStore call: initialized,
state, transactionWrites, transactionEvents, activeUpdate, activeTransaction,
the path factory, the read manager, and the stream of events delivered to
listeners (every subscriber sees the same broadcast sequence, so one list
models notifyListeners). -/
structure EngineState where
  initialized : Bool
  st : SVal
  transactionWrites : List PendingWrite
  transactionEvents : List Event
  activeUpdate : Bool
  activeTransaction : Bool
  pf : PFState
  rm : RMState
  emitted : List Event

/-- Embeds announce: buffer the CRUD event while a transaction is active,
otherwise notify listeners immediately. -/
def announce (es : EngineState) (ev : Event) : EngineState :=
  if es.activeTransaction then
    { es with transactionEvents := es.transactionEvents ++ [ev] }
  else
    { es with emitted := es.emitted ++ [ev] }

/-- Embeds makeInitAware's wrapper body: on the first ever operation, flip
initialized, take a read-manager clone of the whole state and notify an Init
event directly (notifyListeners, not announce). -/
def doInit (es : EngineState) : EngineState × Option Err :=
  if es.initialized then (es, none)
  else
    let es1 := { es with initialized := true }
    match rmClone es1.rm [] es1.st with
    | (.error e, rm2) => ({ es1 with rm := rm2 }, some (.cloneErr e))
    | (.ok c, rm2) =>
        ({ es1 with rm := rm2, emitted := es1.emitted ++ [Event.init c] },
          none)

/-- Embeds utils/getContainer.ts: the parent container of a nonroot path via
getByPath on the path minus its last key. -/
def getContainer (st : SVal) (ks : List Key) : Except Err SVal :=
  match ks with
  | [] => .error .noContainer
  | _ =>
      match getByPath st ks.dropLast with
      | some c => .ok c
      | none => .error .pathNotFound

/-- Embeds the raw get: read the value (throw pathNotFound when the path does
not resolve), clone it through the read manager, announce a Get event, return
the clone (observable in the model through the announced event). -/
def rawGet (es : EngineState) (p : PathObj) (meta : Option SVal) :
    EngineState × Option Err :=
  match getByPath es.st p.keys with
  | none => (es, some .pathNotFound)
  | some v =>
      match rmClone es.rm p.keys v with
      | (.error e, rm2) => ({ es with rm := rm2 }, some (.cloneErr e))
      | (.ok c, rm2) =>
          (announce { es with rm := rm2 } (.get p c meta), none)

/-- Embeds the raw set: clone the incoming value first (a clone failure
aborts with the state untouched); at root replace the state and reset the
read cache; otherwise resolve the parent container, record and reconcile the
previous value when the key pre-exists, Reflect.set the clone, and announce a
Set event carrying a read-manager clone of the new value. -/
def rawSet (es : EngineState) (p : PathObj) (v : SVal) (meta : Option SVal) :
    EngineState × Option Err :=
  match clone v with
  | .error e => (es, some (.cloneErr e))
  | .ok v2 =>
      if p.keys = [] then
        let prev := es.st
        let es1 := { es with rm := rmReset es.rm, st := v2 }
        match rmClone es1.rm p.keys v2 with
        | (.error e, rm2) => ({ es1 with rm := rm2 }, some (.cloneErr e))
        | (.ok c, rm2) =>
            (announce { es1 with rm := rm2 } (.set p (some prev) c meta),
              none)
      else
        match getContainer es.st p.keys with
        | .error e => (es, some e)
        | .ok container =>
            let key := p.keys.getLastD (Key.str [])
            match svLookup container key with
            | some prevVal =>
                let rm1 := rmReconcile es.rm
                  (computePathLineage p.keys prevVal)
                let es1 :=
                  { es with rm := rm1, st := svSetAt es.st p.keys v2 }
                match rmClone es1.rm p.keys v2 with
                | (.error e, rm2) =>
                    ({ es1 with rm := rm2 }, some (.cloneErr e))
                | (.ok c, rm2) =>
                    (announce { es1 with rm := rm2 }
                      (.set p (some prevVal) c meta), none)
            | none =>
                let es1 := { es with st := svSetAt es.st p.keys v2 }
                match rmClone es1.rm p.keys v2 with
                | (.error e, rm2) =>
                    ({ es1 with rm := rm2 }, some (.cloneErr e))
                | (.ok c, rm2) =>
                    (announce { es1 with rm := rm2 }
                      (.set p none c meta), none)

/-- Embeds the raw remove: root is forbidden; resolve the parent, read the
previous value, throw pathNotFound when the key does not exist, delete the
key, reconcile the lineage of the removed value, announce a Remove event. -/
def rawRemove (es : EngineState) (p : PathObj) (meta : Option SVal) :
    EngineState × Option Err :=
  if p.keys = [] then (es, some .cannotRemoveRoot)
  else
    match getContainer es.st p.keys with
    | .error e => (es, some e)
    | .ok container =>
        let key := p.keys.getLastD (Key.str [])
        match svLookup container key with
        | none => (es, some .pathNotFound)
        | some prevVal =>
            let rm1 := rmReconcile es.rm (computePathLineage p.keys prevVal)
            let es1 := { es with st := svDeleteAt es.st p.keys, rm := rm1 }
            (announce es1 (.remove p prevVal meta), none)

/-- Update prelude: everything the raw update does before invoking the
updater.  The activeUpdate flag is raised first and — exactly as in the
source, which has no try/finally — every failure below returns with the flag
still raised.  At root: clone the whole state through the read manager (the
event prevValue), reset the cache, hand over the live state.  Elsewhere:
resolve the container and key (throw pathNotFound when absent), clone the
previous value through the read manager, reconcile its lineage, hand over the
live value. -/
def updPrelude (es : EngineState) (p : PathObj) :
    Except (EngineState × Err) (EngineState × CVal × SVal) :=
  let es0 := { es with activeUpdate := true }
  if p.keys = [] then
    match rmClone es0.rm [] es0.st with
    | (.error e, rm2) => .error ({ es0 with rm := rm2 }, .cloneErr e)
    | (.ok prevC, rm2) => .ok ({ es0 with rm := rmReset rm2 }, prevC, es0.st)
  else
    match getContainer es0.st p.keys with
    | .error e => .error (es0, e)
    | .ok container =>
        let key := p.keys.getLastD (Key.str [])
        match svLookup container key with
        | none => .error (es0, .pathNotFound)
        | some value =>
            match rmClone es0.rm p.keys value with
            | (.error e, rm2) => .error ({ es0 with rm := rm2 }, .cloneErr e)
            | (.ok prevC, rm2) =>
                let rm3 := rmReconcile rm2
                  (computePathLineage p.keys prevC.toSVal)
                .ok ({ es0 with rm := rm3 }, prevC, value)

/-- Update postlude: everything the raw update does after the updater
returns.  The in-place mutation performed by the updater on the live value is
applied to the tree; the resulting value (the updater return value when not
undefined, else the mutated argument) is cloned — a clone failure propagates
with the mutation already in the tree and the flag still raised; on success
the clone is written back, the flag lowered, and an Update event announced
carrying the read-manager clone of the new value. -/
def updFinish (es : EngineState) (p : PathObj) (prevC : CVal)
    (mutated : SVal) (ret : Option SVal) (meta : Option SVal) :
    EngineState × Option Err :=
  if p.keys = [] then
    let es3 := { es with st := mutated }
    let value := ret.getD mutated
    match clone value with
    | .error e => (es3, some (.cloneErr e))
    | .ok v2 =>
        let es4 := { es3 with st := v2, activeUpdate := false }
        match rmClone es4.rm [] value with
        | (.error e, rm3) => ({ es4 with rm := rm3 }, some (.cloneErr e))
        | (.ok c, rm3) =>
            (announce { es4 with rm := rm3 } (.update p prevC c meta), none)
  else
    let es3 := { es with st := svSetAt es.st p.keys mutated }
    let value2 := ret.getD mutated
    match clone value2 with
    | .error e => (es3, some (.cloneErr e))
    | .ok v2 =>
        let es4 :=
          { es3 with st := svSetAt es3.st p.keys v2, activeUpdate := false }
        match rmClone es4.rm p.keys v2 with
        | (.error e, rm4) => ({ es4 with rm := rm4 }, some (.cloneErr e))
        | (.ok c, rm4) =>
            (announce { es4 with rm := rm4 } (.update p prevC c meta), none)

/-- Entry points of the evaluator: a store-handle call, a sequence of calls
(a transaction body or operations issued by an updater), the
makeUpdateAware(makePathFactoryAware(writer)) closure, a raw writer with its
captured arguments, the transaction function, and the deferred-write
queue. -/
inductive Req
  | rop (op : Op)
  | rops (ops : List Op)
  | rwriter (pw : PendingWrite)
  | rraw (pw : PendingWrite)
  | rtxn (body : List Op) (meta : Option SVal)
  | rpends (pws : List PendingWrite)

/-- The engine evaluator.  Fuel is structural and decreases on every internal
call so that concrete runs compute definitionally; Err.fuel never arises at
the depths used below.  Semantics per entry:

rop: get is makeInitAware(makePathFactoryAware(get)); set/update/remove are
enhanceWriter = makeInitAware(makeTransactionAware(makeUpdateAware(
makePathFactoryAware(raw)))) — so during an active transaction the write is
enqueued (without any update or path check) and executes only in the deferred
phase; transaction is makeInitAware(transaction).

rops: run the operations in order; the first exception propagates.

rwriter: the closure makeTransactionAware captured: check activeUpdate, then
that the path came from this store factory, then run the raw writer.

rraw: dispatch to the raw writer; for update, run the prelude, then the
caller updater (a throwing updater or a failing issued operation propagates
with the flag raised), then the postlude.

rtxn: reject during an update (txnDuringUpdate) or another transaction
(concurrentTxn); raise the flag; run the body, then the snapshot of the
deferred queue (Array.prototype.forEach visits only the elements present when
iteration starts, so writes enqueued during the deferred phase are never
executed and are dropped by the reset); package the buffered events into one
Transaction event, reset buffers and flag, notify listeners.  An exception
from the body or a deferred write propagates before the reset: the flag
stays raised and nothing is broadcast.

rpends: run each captured closure in order. -/
def eval : Nat → EngineState → Req → EngineState × Option Err
  | 0, es, _ => (es, some .fuel)
  | f + 1, es, .rop op =>
      match op with
      | .oget p meta =>
          match doInit es with
          | (es1, some e) => (es1, some e)
          | (es1, none) =>
              if fromFactory es1.pf p then rawGet es1 p meta
              else (es1, some .invalidPath)
      | .oset p v meta =>
          match doInit es with
          | (es1, some e) => (es1, some e)
          | (es1, none) =>
              if es1.activeTransaction then
                ({ es1 with transactionWrites :=
                    es1.transactionWrites ++ [.pset p v meta] }, none)
              else eval f es1 (.rwriter (.pset p v meta))
      | .oupdate p u meta =>
          match doInit es with
          | (es1, some e) => (es1, some e)
          | (es1, none) =>
              if es1.activeTransaction then
                ({ es1 with transactionWrites :=
                    es1.transactionWrites ++ [.pupdate p u meta] }, none)
              else eval f es1 (.rwriter (.pupdate p u meta))
      | .oremove p meta =>
          match doInit es with
          | (es1, some e) => (es1, some e)
          | (es1, none) =>
              if es1.activeTransaction then
                ({ es1 with transactionWrites :=
                    es1.transactionWrites ++ [.premove p meta] }, none)
              else eval f es1 (.rwriter (.premove p meta))
      | .otxn body meta =>
          match doInit es with
          | (es1, some e) => (es1, some e)
          | (es1, none) => eval f es1 (.rtxn body meta)
  | _ + 1, es, .rops [] => (es, none)
  | f + 1, es, .rops (op :: rest) =>
      match eval f es (.rop op) with
      | (es2, some e) => (es2, some e)
      | (es2, none) => eval f es2 (.rops rest)
  | f + 1, es, .rwriter pw =>
      if es.activeUpdate then (es, some .nestedWrite)
      else if fromFactory es.pf pw.path then eval f es (.rraw pw)
      else (es, some .invalidPath)
  | f + 1, es, .rraw pw =>
      match pw with
      | .pset p v meta => rawSet es p v meta
      | .premove p meta => rawRemove es p meta
      | .pupdate p u meta =>
          match updPrelude es p with
          | .error (es0, e) => (es0, some e)
          | .ok (es1, prevC, live) =>
              match u with
              | .pure fn =>
                  updFinish es1 p prevC (fn live).1 (fn live).2 meta
              | .throws => (es1, some .userThrow)
              | .issuing ops fn =>
                  match eval f es1 (.rops ops) with
                  | (es2, some e) => (es2, some e)
                  | (es2, none) =>
                      updFinish es2 p prevC (fn live).1 (fn live).2 meta
  | f + 1, es, .rtxn body meta =>
      if es.activeUpdate then (es, some .txnDuringUpdate)
      else if es.activeTransaction then (es, some .concurrentTxn)
      else
        let es1 := { es with activeTransaction := true }
        match eval f es1 (.rops body) with
        | (es2, some e) => (es2, some e)
        | (es2, none) =>
            match eval f es2 (.rpends es2.transactionWrites) with
            | (es3, some e) => (es3, some e)
            | (es3, none) =>
                let ev := Event.txn es3.transactionEvents meta
                let es4 : EngineState :=
                  { initialized := es3.initialized, st := es3.st,
                    transactionWrites := [], transactionEvents := [],
                    activeUpdate := es3.activeUpdate,
                    activeTransaction := false, pf := es3.pf,
                    rm := es3.rm, emitted := es3.emitted }
                ({ es4 with emitted := es4.emitted ++ [ev] }, none)
  | _ + 1, es, .rpends [] => (es, none)
  | f + 1, es, .rpends (pw :: rest) =>
      match eval f es (.rwriter pw) with
      | (es2, some e) => (es2, some e)
      | (es2, none) => eval f es2 (.rpends rest)

/-- A call on the store handle. -/
def runOp (f : Nat) (es : EngineState) (op : Op) : EngineState × Option Err :=
  eval f es (.rop op)

/-- A sequence of calls on the store handle. -/
def runOps (f : Nat) (es : EngineState) (ops : List Op) :
    EngineState × Option Err :=
  eval f es (.rops ops)

/-- Fixed keys and canonical path objects used by the concrete scenarios. -/
def keyA : Key := .str ['a']

def keyB : Key := .str ['b']

def pa : PathObj := ⟨0, [keyA]⟩

def pb : PathObj := ⟨1, [keyB]⟩

/-- A small already-initialized idle store: state is the record with fields a
= 1 and b = 2, the factory has interned the paths for "a" and "b", the read
cache is empty, and no events have been broadcast yet. -/
def esBase : EngineState :=
  { initialized := true
    st := .record [(['a'], .prim (.num 1)), (['b'], .prim (.num 2))]
    transactionWrites := []
    transactionEvents := []
    activeUpdate := false
    activeTransaction := false
    pf := ⟨2, [(joined [keyA], pa), (joined [keyB], pb)]⟩
    rm := rmInit
    emitted := [] }

/-- C2 (behavior of the code at the failing input): on the store with state
a = 1, b = 2, an update at path "a" whose updater throws propagates the
exception with activeUpdate still true — the source raises the flag first and
has no try/finally — so a subsequent set at path "b" on the same store fails
with NestedWriteForbidden ("An update cannot include other writes") instead
of succeeding, leaving the state unchanged. -/
theorem update_throw_leaves_flag_raised :
    (runOp 9 esBase (.oupdate pa .throws none)).2 = some .userThrow ∧
    (runOp 9 esBase (.oupdate pa .throws none)).1.activeUpdate = true ∧
    (runOp 9 (runOp 9 esBase (.oupdate pa .throws none)).1
        (.oset pb (.prim (.num 3)) none)).2 = some .nestedWrite ∧
    (runOp 9 (runOp 9 esBase (.oupdate pa .throws none)).1
        (.oset pb (.prim (.num 3)) none)).1.st = esBase.st :=
  ⟨rfl, rfl, rfl, rfl⟩

/-- C4 counterexample: inside a transaction, the deferred update at "a" runs
its updater while activeTransaction is still true, so the set at "b" issued
from inside that updater is routed by makeTransactionAware back into the
deferred-write queue past the forEach snapshot instead of hitting the
activeUpdate guard: the whole transaction completes without any error — no
NestedWriteForbidden is raised — the inner set never executes (b stays 2),
and no Set event appears anywhere. -/
theorem nested_write_in_transactional_update_not_rejected :
    (runOp 20 esBase
        (.otxn [.oupdate pa
          (.issuing [.oset pb (.prim (.num 7)) none] (fun x => (x, none)))
          none] none)).2 = none ∧
    getByPath (runOp 20 esBase
        (.otxn [.oupdate pa
          (.issuing [.oset pb (.prim (.num 7)) none] (fun x => (x, none)))
          none] none)).1.st [keyB] = some (.prim (.num 2)) ∧
    (runOp 20 esBase
        (.otxn [.oupdate pa
          (.issuing [.oset pb (.prim (.num 7)) none] (fun x => (x, none)))
          none] none)).1.emitted =
      [.txn [.update pa (.prim (.num 1)) (.prim (.num 1)) none] none] ∧
    (runOp 20 esBase
        (.otxn [.oupdate pa
          (.issuing [.oset pb (.prim (.num 7)) none] (fun x => (x, none)))
          none] none)).1.transactionWrites = [] :=
  ⟨rfl, rfl, rfl, rfl⟩

/-- The live record {x: 1} after the in-place property write
live.y = (some Map): the mutated value {x: 1, y: exotic}. -/
def recMut : SVal := .record [(['x'], .prim (.num 1)), (['y'], .exotic)]

/-- The base store with a container at "a": state is the record with a =
{x: 1} and b = 2 (same factory, empty cache, idle). -/
def esRec : EngineState :=
  { esBase with st := .record [(['a'], .record [(['x'], .prim (.num 1))]),
      (['b'], .prim (.num 2))] }

/-- C3 counterexample: an update at the container path "a" whose updater
mutates the live record in place — the property write live.y = (some Map),
i.e. Reflect.set on the live subtree, a mutation any JS updater can perform
— and returns undefined.  Cloning the converged value then fails with
Uncloneable, yet at the moment the error is raised the store state has
already changed: the in-place mutation persists (a now holds
{x: 1, y: exotic}) — refuting "the store state is unchanged when the error
is raised" for update; no event is emitted. -/
theorem update_clone_failure_after_inplace_mutation :
    (runOp 9 esRec (.oupdate pa
        (.pure (fun live => (setChild live (Key.str ['y']) .exotic, none)))
        none)).2 =
      some (.cloneErr .uncloneable) ∧
    (runOp 9 esRec (.oupdate pa
        (.pure (fun live => (setChild live (Key.str ['y']) .exotic, none)))
        none)).1.st =
      .record [(['a'], .record [(['x'], .prim (.num 1)), (['y'], .exotic)]),
        (['b'], .prim (.num 2))] ∧
    (runOp 9 esRec (.oupdate pa
        (.pure (fun live => (setChild live (Key.str ['y']) .exotic, none)))
        none)).1.st ≠
      esRec.st ∧
    (runOp 9 esRec (.oupdate pa
        (.pure (fun live => (setChild live (Key.str ['y']) .exotic, none)))
        none)).1.emitted =
      [] ∧
    (runOp 9 esRec (.oupdate pa
        (.pure (fun live => (setChild live (Key.str ['y']) .exotic, none)))
        none)).1.activeUpdate = true :=
  ⟨rfl, rfl, by decide, rfl, rfl⟩

/-- C1 counterexample: a transaction body that calls set("a", 5) and then
get("a") succeeds and broadcasts exactly one Transaction event, but the
buffered events inside it are [Get, Set] — the Get event (buffered while the
body ran) precedes the Set event (buffered when the deferred write executed
after the body) — not the call order [Set, Get] the claim asserts.  The Get
also still sees the pre-transaction value 1. -/
theorem transaction_event_order_reads_before_writes :
    (runOp 20 esBase
        (.otxn [.oset pa (.prim (.num 5)) none, .oget pa none] none)).2 =
      none ∧
    (runOp 20 esBase
        (.otxn [.oset pa (.prim (.num 5)) none, .oget pa none] none)).1.emitted
      = [.txn [.get pa (.prim (.num 1)) none,
          .set pa (some (.prim (.num 1))) (.prim (.num 5)) none] none] ∧
    getByPath (runOp 20 esBase
        (.otxn [.oset pa (.prim (.num 5)) none, .oget pa none] none)).1.st
      [keyA] = some (.prim (.num 5)) :=
  ⟨rfl, rfl, rfl⟩

/-- The write operation a pending write came from. -/
def PendingWrite.toOp : PendingWrite → Op
  | .pset p v meta => .oset p v meta
  | .pupdate p u meta => .oupdate p u meta
  | .premove p meta => .oremove p meta

theorem doInit_err {es es1 : EngineState} {e : Err}
    (h : doInit es = (es1, some e)) : ∃ ce, e = .cloneErr ce := by
  unfold doInit at h
  split at h
  · cases h
  · dsimp only at h
    split at h
    · cases h
      exact ⟨_, rfl⟩
    · cases h

theorem rawGet_err {es es1 : EngineState} {p : PathObj} {meta : Option SVal}
    {e : Err} (h : rawGet es p meta = (es1, some e)) :
    e = .pathNotFound ∨ ∃ ce, e = .cloneErr ce := by
  unfold rawGet at h
  split at h
  · cases h
    exact Or.inl rfl
  · split at h
    · cases h
      exact Or.inr ⟨_, rfl⟩
    · cases h

/-- C4 (amended): with the store initialized, (a) while an update's updater
executes outside any transaction, every write issued — set, update or remove,
including from inside the updater — fails with NestedWriteForbidden and
leaves the engine state exactly unchanged; (b) a transaction issued in that
situation fails, but with TransactionDuringUpdateForbidden, not the
nested-write error; (c) reads are never rejected by the nested-write guard;
(d) when the update runs as a deferred transaction write (activeTransaction
still true), a write issued from inside the updater does not fail at all: it
is appended to the deferred-write queue (beyond the forEach snapshot, hence
silently discarded) and no error is raised. -/
theorem nested_writes_during_update :
    (∀ (f : Nat) (es : EngineState) (pw : PendingWrite),
      es.initialized = true → es.activeUpdate = true →
      es.activeTransaction = false →
      runOp (f + 2) es pw.toOp = (es, some .nestedWrite)) ∧
    (∀ (f : Nat) (es : EngineState) (body : List Op) (meta : Option SVal),
      es.initialized = true → es.activeUpdate = true →
      runOp (f + 2) es (.otxn body meta) = (es, some .txnDuringUpdate)) ∧
    (∀ (f : Nat) (es : EngineState) (p : PathObj) (meta : Option SVal),
      (runOp f es (.oget p meta)).2 ≠ some .nestedWrite) ∧
    (∀ (f : Nat) (es : EngineState) (pw : PendingWrite),
      es.initialized = true → es.activeTransaction = true →
      runOp (f + 1) es pw.toOp =
        ({ es with transactionWrites := es.transactionWrites ++ [pw] },
          none)) := by
  refine ⟨?_, ?_, ?_, ?_⟩
  · intro f es pw hinit hupd htxn
    cases pw <;>
      simp [runOp, eval, doInit, PendingWrite.toOp, hinit, hupd, htxn]
  · intro f es body meta hinit hupd
    simp [runOp, eval, doInit, hinit, hupd]
  · intro f es p meta
    cases f with
    | zero => simp [runOp, eval]
    | succ f2 =>
        simp only [runOp, eval]
        rcases hres : doInit es with ⟨es1, err⟩
        cases err with
        | some e =>
            obtain ⟨ce, rfl⟩ := doInit_err hres
            simp
        | none =>
            simp only
            split
            · rcases hres2 : rawGet es1 p meta with ⟨es2, err2⟩
              cases err2 with
              | some e =>
                  rcases rawGet_err hres2 with rfl | ⟨ce, rfl⟩ <;> simp
              | none => simp
            · simp
  · intro f es pw hinit htxn
    cases pw <;>
      simp [runOp, eval, doInit, PendingWrite.toOp, hinit, htxn]

/-- Witness for C4 (amended) at concrete inputs: with activeUpdate raised on
the base store, a set at "b" fails with the nested-write error; a transaction
fails with the during-update error; a get is not rejected by the nested-write
guard; and with activeTransaction raised instead, the set is enqueued without
error. -/
theorem nested_writes_during_update_witness :
    runOp 2 { esBase with activeUpdate := true }
        (PendingWrite.pset pb (.prim (.num 3)) none).toOp =
      ({ esBase with activeUpdate := true }, some .nestedWrite) ∧
    runOp 2 { esBase with activeUpdate := true } (.otxn [] none) =
      ({ esBase with activeUpdate := true }, some .txnDuringUpdate) ∧
    (runOp 5 esBase (.oget pa none)).2 ≠ some .nestedWrite ∧
    runOp 1 { esBase with activeTransaction := true }
        (PendingWrite.pset pb (.prim (.num 3)) none).toOp =
      ({ esBase with activeTransaction := true, transactionWrites :=
          [.pset pb (.prim (.num 3)) none] }, none) :=
  ⟨nested_writes_during_update.1 0 _ _ rfl rfl rfl,
    nested_writes_during_update.2.1 0 _ [] none rfl rfl,
    nested_writes_during_update.2.2.1 5 esBase pa none,
    nested_writes_during_update.2.2.2 0 _ _ rfl rfl⟩

/-- C3 (amended): (i) for set, the claim holds as stated: a clone/validation
failure on the incoming value aborts before any state mutation or event
emission — the engine state is returned exactly unchanged with the clone
error; (ii) for update, no event is emitted and no write-back of a clone
occurs when cloning the updater result fails, but the in-place mutation the
updater performed on the live value persists in the tree (and the
activeUpdate flag stays raised, see the C2 theorem). -/
theorem clone_failure_aborts :
    (∀ (f : Nat) (es : EngineState) (p : PathObj) (v : SVal)
      (meta : Option SVal) (e : CloneErr),
      es.initialized = true → es.activeTransaction = false →
      es.activeUpdate = false → fromFactory es.pf p = true →
      clone v = .error e →
      runOp (f + 3) es (.oset p v meta) = (es, some (.cloneErr e))) ∧
    (∀ (es : EngineState) (p : PathObj) (prevC : CVal) (mutated : SVal)
      (ret : Option SVal) (meta : Option SVal) (e : CloneErr),
      p.keys ≠ [] → clone (ret.getD mutated) = .error e →
      updFinish es p prevC mutated ret meta =
        ({ es with st := svSetAt es.st p.keys mutated },
          some (.cloneErr e))) := by
  constructor
  · intro f es p v meta e hinit htxn hupd hpf hclone
    simp [runOp, eval, doInit, hinit, htxn, hupd, hpf, rawSet, hclone,
      PendingWrite.path]
  · intro es p prevC mutated ret meta e hne hclone
    simp [updFinish, hne, hclone]

/-- Witness for C3 (amended) at concrete inputs: setting "a" to an
uncloneable value fails with Uncloneable and leaves the base store exactly
unchanged; finishing an update at the container path "a" whose updater
mutated the live record {x: 1} in place into {x: 1, y: exotic} (and
returned undefined) leaves the in-place mutation in the tree and emits
nothing. -/
theorem clone_failure_aborts_witness :
    runOp 3 esBase (.oset pa .exotic none) =
      (esBase, some (.cloneErr .uncloneable)) ∧
    updFinish esRec pa (.node 0 true .record [(['x'], .prim (.num 1))])
        recMut none none =
      ({ esRec with st := svSetAt esRec.st pa.keys recMut },
        some (.cloneErr .uncloneable)) :=
  ⟨clone_failure_aborts.1 0 esBase pa .exotic none .uncloneable rfl rfl rfl
      rfl rfl,
    clone_failure_aborts.2 esRec pa
      (.node 0 true .record [(['x'], .prim (.num 1))])
      recMut none none
      .uncloneable (by decide) rfl⟩

/-- Simple CRUD operations: the transaction bodies quantified over in the
atomicity theorem — reads, and writes whose updaters are pure (no operations
issued from inside updaters, no nested transactions). -/
inductive SimpleOp
  | sget (p : PathObj) (meta : Option SVal)
  | sset (p : PathObj) (v : SVal) (meta : Option SVal)
  | supdate (p : PathObj) (f : SVal → SVal × Option SVal)
      (meta : Option SVal)
  | sremove (p : PathObj) (meta : Option SVal)

/-- The store-handle call a simple operation stands for. -/
def SimpleOp.toOp : SimpleOp → Op
  | .sget p m => .oget p m
  | .sset p v m => .oset p v m
  | .supdate p f m => .oupdate p (.pure f) m
  | .sremove p m => .oremove p m

/-- Writes are everything but get. -/
def SimpleOp.isWrite : SimpleOp → Bool
  | .sget _ _ => false
  | _ => true

/-- The pending write a simple write turns into when deferred. -/
def SimpleOp.toPending : SimpleOp → Option PendingWrite
  | .sget _ _ => none
  | .sset p v m => some (.pset p v m)
  | .supdate p f m => some (.pupdate p (.pure f) m)
  | .sremove p m => some (.premove p m)

/-- Event kinds for signatures. -/
inductive EvKind
  | kinit
  | kget
  | kset
  | kupdate
  | kremove
  | ktxn
  deriving DecidableEq, Repr

/-- Kind, path and meta of a CRUD event (none for Init and Transaction
events), used to state which buffered event corresponds to which body
operation. -/
def Event.sig : Event → Option (EvKind × PathObj × Option SVal)
  | .get p _ m => some (.kget, p, m)
  | .set p _ _ m => some (.kset, p, m)
  | .update p _ _ m => some (.kupdate, p, m)
  | .remove p _ m => some (.kremove, p, m)
  | _ => none

/-- Signature of the event a simple operation generates. -/
def SimpleOp.sig : SimpleOp → EvKind × PathObj × Option SVal
  | .sget p m => (.kget, p, m)
  | .sset p _ m => (.kset, p, m)
  | .supdate p _ m => (.kupdate, p, m)
  | .sremove p m => (.kremove, p, m)

/-- Signature of the event a deferred write generates when it executes. -/
def PendingWrite.sig : PendingWrite → EvKind × PathObj × Option SVal
  | .pset p _ m => (.kset, p, m)
  | .pupdate p _ m => (.kupdate, p, m)
  | .premove p m => (.kremove, p, m)

/-- Pending writes whose updater (if any) is pure. -/
def PendingWrite.isSimple : PendingWrite → Bool
  | .pset _ _ _ => true
  | .premove _ _ => true
  | .pupdate _ (.pure _) _ => true
  | .pupdate _ _ _ => false

/-- State-only effect of one raw write on the tree, assuming the write
raises no exception (the theorems below only use it under that
hypothesis). -/
def stepW (st : SVal) : PendingWrite → SVal
  | .pset p v _ =>
      match clone v with
      | .ok v2 => if p.keys = [] then v2 else svSetAt st p.keys v2
      | .error _ => st
  | .premove p _ => svDeleteAt st p.keys
  | .pupdate p u _ =>
      let live := if p.keys = [] then st
        else ((getContainer st p.keys).toOption.bind
          (fun c => svLookup c (p.keys.getLastD (Key.str [])))).getD st
      match u with
      | .pure f =>
          match clone (((f live).2).getD (f live).1) with
          | .ok v2 =>
              if p.keys = [] then v2
              else svSetAt (svSetAt st p.keys (f live).1) p.keys v2
          | .error _ => st
      | _ => st

theorem rop_get_in_txn {f : Nat} {es es2 : EngineState} {p : PathObj}
    {meta : Option SVal}
    (hinit : es.initialized = true) (htxn : es.activeTransaction = true)
    (h : eval (f + 1) es (.rop (.oget p meta)) = (es2, none)) :
    es2.st = es.st ∧ es2.emitted = es.emitted ∧
    es2.transactionWrites = es.transactionWrites ∧
    (∃ c, es2.transactionEvents =
      es.transactionEvents ++ [Event.get p c meta]) ∧
    es2.activeTransaction = true ∧ es2.activeUpdate = es.activeUpdate ∧
    es2.initialized = true ∧ es2.pf = es.pf := by
  simp only [eval, doInit, hinit, if_true, reduceIte] at h
  split at h
  · unfold rawGet at h
    split at h
    · cases h
    · split at h
      · cases h
      · rename_i v hv c rm2 hrm
        simp only [announce] at h
        rw [if_pos htxn] at h
        cases h
        exact ⟨rfl, rfl, rfl, ⟨c, rfl⟩, htxn, rfl, hinit, rfl⟩
  · cases h

theorem rop_write_enqueues (f : Nat) (es : EngineState) (pw : PendingWrite)
    (hinit : es.initialized = true) (htxn : es.activeTransaction = true) :
    eval (f + 1) es (.rop pw.toOp) =
      ({ es with transactionWrites := es.transactionWrites ++ [pw] },
        none) := by
  cases pw <;> simp [eval, doInit, PendingWrite.toOp, hinit, htxn]

theorem bodyPhase : ∀ (f : Nat) (es es2 : EngineState)
    (body : List SimpleOp),
    es.initialized = true → es.activeTransaction = true →
    eval f es (.rops (body.map SimpleOp.toOp)) = (es2, none) →
    es2.st = es.st ∧ es2.emitted = es.emitted ∧
    es2.transactionWrites =
      es.transactionWrites ++ body.filterMap SimpleOp.toPending ∧
    (∃ evs, es2.transactionEvents = es.transactionEvents ++ evs ∧
      evs.map Event.sig =
        (body.filter (fun o => o.isWrite = false)).map
          (fun o => some o.sig)) ∧
    es2.activeTransaction = true ∧ es2.activeUpdate = es.activeUpdate ∧
    es2.initialized = true ∧ es2.pf = es.pf := by
  intro f
  induction f with
  | zero =>
      intro es es2 body _ _ h
      simp [eval] at h
  | succ f ih =>
      intro es es2 body hinit htxn h
      cases body with
      | nil =>
          simp only [List.map_nil, eval] at h
          cases h
          exact ⟨rfl, rfl, by simp [List.filterMap], ⟨[], by simp, by simp⟩,
            htxn, rfl, hinit, rfl⟩
      | cons op rest =>
          simp only [List.map_cons, eval] at h
          rcases hop : eval f es (.rop op.toOp) with ⟨es1, err1⟩
          rw [hop] at h
          cases err1 with
          | some e => simp at h
          | none =>
              simp only at h
              cases f with
              | zero => simp [eval] at hop
              | succ f2 =>
                  cases op with
                  | sget p meta =>
                      obtain ⟨h1, h2, h3, ⟨c, h4⟩, h5, h6, h7, h8⟩ :=
                        rop_get_in_txn hinit htxn hop
                      obtain ⟨g1, g2, g3, ⟨evs, g4, g5⟩, g6, g7, g8, g9⟩ :=
                        ih es1 es2 rest h7 h5 h
                      refine ⟨g1.trans h1, g2.trans h2, ?_, ?_, g6,
                        g7.trans h6, g8, g9.trans h8⟩
                      · rw [g3, h3]
                        simp [SimpleOp.toPending]
                      · refine ⟨Event.get p c meta :: evs, ?_, ?_⟩
                        · rw [g4, h4]
                          simp
                        · simp only [List.map_cons, g5]
                          simp [SimpleOp.isWrite, Event.sig, SimpleOp.sig]
                  | sset p v meta =>
                      simp only [SimpleOp.toOp] at hop
                      rw [show (Op.oset p v meta) =
                          (PendingWrite.pset p v meta).toOp from rfl,
                        rop_write_enqueues f2 es _ hinit htxn] at hop
                      cases hop
                      obtain ⟨g1, g2, g3, ⟨evs, g4, g5⟩, g6, g7, g8, g9⟩ :=
                        ih { es with transactionWrites :=
                            es.transactionWrites ++ [PendingWrite.pset p v meta] }
                          es2 rest hinit htxn h
                      refine ⟨g1, g2, ?_, ?_, g6, g7, g8, g9⟩
                      · rw [g3]
                        simp [SimpleOp.toPending]
                      · refine ⟨evs, g4, ?_⟩
                        rw [g5]
                        simp [SimpleOp.isWrite]
                  | supdate p fu meta =>
                      simp only [SimpleOp.toOp] at hop
                      rw [show (Op.oupdate p (.pure fu) meta) =
                          (PendingWrite.pupdate p (.pure fu) meta).toOp
                          from rfl,
                        rop_write_enqueues f2 es _ hinit htxn] at hop
                      cases hop
                      obtain ⟨g1, g2, g3, ⟨evs, g4, g5⟩, g6, g7, g8, g9⟩ :=
                        ih { es with transactionWrites :=
                            es.transactionWrites ++ [PendingWrite.pupdate p (.pure fu) meta] }
                          es2 rest hinit htxn h
                      refine ⟨g1, g2, ?_, ?_, g6, g7, g8, g9⟩
                      · rw [g3]
                        simp [SimpleOp.toPending]
                      · refine ⟨evs, g4, ?_⟩
                        rw [g5]
                        simp [SimpleOp.isWrite]
                  | sremove p meta =>
                      simp only [SimpleOp.toOp] at hop
                      rw [show (Op.oremove p meta) =
                          (PendingWrite.premove p meta).toOp from rfl,
                        rop_write_enqueues f2 es _ hinit htxn] at hop
                      cases hop
                      obtain ⟨g1, g2, g3, ⟨evs, g4, g5⟩, g6, g7, g8, g9⟩ :=
                        ih { es with transactionWrites :=
                            es.transactionWrites ++ [PendingWrite.premove p meta] }
                          es2 rest hinit htxn h
                      refine ⟨g1, g2, ?_, ?_, g6, g7, g8, g9⟩
                      · rw [g3]
                        simp [SimpleOp.toPending]
                      · refine ⟨evs, g4, ?_⟩
                        rw [g5]
                        simp [SimpleOp.isWrite]

theorem announce_st (es : EngineState) (ev : Event) :
    (announce es ev).st = es.st := by
  unfold announce
  split <;> rfl

theorem announce_activeTransaction (es : EngineState) (ev : Event) :
    (announce es ev).activeTransaction = es.activeTransaction := by
  unfold announce
  split <;> rfl

theorem announce_activeUpdate (es : EngineState) (ev : Event) :
    (announce es ev).activeUpdate = es.activeUpdate := by
  unfold announce
  split <;> rfl

theorem announce_initialized (es : EngineState) (ev : Event) :
    (announce es ev).initialized = es.initialized := by
  unfold announce
  split <;> rfl

theorem announce_pf (es : EngineState) (ev : Event) :
    (announce es ev).pf = es.pf := by
  unfold announce
  split <;> rfl

theorem announce_tw (es : EngineState) (ev : Event) :
    (announce es ev).transactionWrites = es.transactionWrites := by
  unfold announce
  split <;> rfl

theorem announce_emitted_of_txn (es : EngineState) (ev : Event)
    (h : es.activeTransaction = true) :
    (announce es ev).emitted = es.emitted := by
  unfold announce
  rw [if_pos h]

theorem announce_te_of_txn (es : EngineState) (ev : Event)
    (h : es.activeTransaction = true) :
    (announce es ev).transactionEvents = es.transactionEvents ++ [ev] := by
  unfold announce
  rw [if_pos h]

theorem pendingWrite_effect : ∀ (f : Nat) (es es2 : EngineState)
    (pw : PendingWrite),
    es.activeTransaction = true → es.activeUpdate = false →
    pw.isSimple = true →
    eval (f + 1) es (.rwriter pw) = (es2, none) →
    es2.st = stepW es.st pw ∧ es2.emitted = es.emitted ∧
    (∃ ev, es2.transactionEvents = es.transactionEvents ++ [ev] ∧
      Event.sig ev = some pw.sig) ∧
    es2.activeTransaction = true ∧ es2.activeUpdate = false ∧
    es2.initialized = es.initialized ∧ es2.pf = es.pf := by
  intro f es es2 pw htxn hupd hsimple h
  simp only [eval, hupd, Bool.false_eq_true, if_false] at h
  split at h
  case isFalse => simp at h
  case isTrue hpf =>
    cases f with
    | zero => simp [eval] at h
    | succ f2 =>
        cases pw with
        | pset p v meta =>
            simp only [eval, rawSet] at h
            split at h
            case h_1 => simp at h
            case h_2 v2 hclone =>
              split at h
              case isTrue hroot =>
                split at h
                case h_1 => simp at h
                case h_2 c rm2 hrm =>
                  cases h
                  refine ⟨?_, announce_emitted_of_txn _ _ htxn,
                    ⟨_, announce_te_of_txn _ _ htxn, rfl⟩,
                    (announce_activeTransaction _ _).trans htxn,
                    (announce_activeUpdate _ _).trans hupd,
                    announce_initialized _ _, announce_pf _ _⟩
                  rw [announce_st]
                  simp [stepW, hclone, hroot]
              case isFalse hroot =>
                split at h
                case h_1 => simp at h
                case h_2 container hcont =>
                  split at h
                  case h_1 prevVal hlook =>
                    split at h
                    case h_1 => simp at h
                    case h_2 c rm2 hrm =>
                      cases h
                      refine ⟨?_, announce_emitted_of_txn _ _ htxn,
                        ⟨_, announce_te_of_txn _ _ htxn, rfl⟩,
                        (announce_activeTransaction _ _).trans htxn,
                        (announce_activeUpdate _ _).trans hupd,
                        announce_initialized _ _, announce_pf _ _⟩
                      rw [announce_st]
                      simp [stepW, hclone, hroot]
                  case h_2 hlook =>
                    split at h
                    case h_1 => simp at h
                    case h_2 c rm2 hrm =>
                      cases h
                      refine ⟨?_, announce_emitted_of_txn _ _ htxn,
                        ⟨_, announce_te_of_txn _ _ htxn, rfl⟩,
                        (announce_activeTransaction _ _).trans htxn,
                        (announce_activeUpdate _ _).trans hupd,
                        announce_initialized _ _, announce_pf _ _⟩
                      rw [announce_st]
                      simp [stepW, hclone, hroot]
        | premove p meta =>
            simp only [eval, rawRemove] at h
            split at h
            case isTrue => simp at h
            case isFalse hroot =>
              split at h
              case h_1 => simp at h
              case h_2 container hcont =>
                split at h
                case h_1 => simp at h
                case h_2 prevVal hlook =>
                  cases h
                  refine ⟨?_, announce_emitted_of_txn _ _ htxn,
                    ⟨_, announce_te_of_txn _ _ htxn, rfl⟩,
                    (announce_activeTransaction _ _).trans htxn,
                    (announce_activeUpdate _ _).trans hupd,
                    announce_initialized _ _, announce_pf _ _⟩
                  rw [announce_st]
                  simp [stepW]
        | pupdate p u meta =>
            cases u with
            | throws => simp [PendingWrite.isSimple] at hsimple
            | issuing ops fn => simp [PendingWrite.isSimple] at hsimple
            | pure fn =>
                simp only [eval, updPrelude] at h
                split at h
                case h_1 => simp at h
                case h_2 es1 prevC live heq =>
                  by_cases hroot : p.keys = []
                  · rw [if_pos hroot] at heq
                    split at heq
                    next => simp at heq
                    next prevC2 rm2 hrm =>
                      cases heq
                      simp only [updFinish, hroot, if_true, reduceIte] at h
                      split at h
                      case h_1 => simp at h
                      case h_2 v2 hclone =>
                        split at h
                        case h_1 => simp at h
                        case h_2 c rm3 hrm3 =>
                          cases h
                          refine ⟨?_, announce_emitted_of_txn _ _ htxn,
                            ⟨_, announce_te_of_txn _ _ htxn, rfl⟩,
                            (announce_activeTransaction _ _).trans htxn,
                            announce_activeUpdate _ _,
                            announce_initialized _ _, announce_pf _ _⟩
                          rw [announce_st]
                          simp [stepW, hroot, hclone]
                  · rw [if_neg hroot] at heq
                    split at heq
                    next => simp at heq
                    next container hcont =>
                      split at heq
                      next => simp at heq
                      next value hlook =>
                        split at heq
                        next => simp at heq
                        next prevC2 rm2 hrm =>
                          cases heq
                          simp only [updFinish, hroot, if_false,
                            reduceIte] at h
                          split at h
                          case h_1 => simp at h
                          case h_2 v2 hclone =>
                            split at h
                            case h_1 => simp at h
                            case h_2 c rm4 hrm4 =>
                              cases h
                              refine ⟨?_, announce_emitted_of_txn _ _ htxn,
                                ⟨_, announce_te_of_txn _ _ htxn, rfl⟩,
                                (announce_activeTransaction _ _).trans htxn,
                                announce_activeUpdate _ _,
                                announce_initialized _ _, announce_pf _ _⟩
                              rw [announce_st]
                              rw [List.getLastD_eq_getLast?] at hlook
                              simp [stepW, hroot, hcont, hlook, hclone,
                                Except.toOption]

theorem deferredPhase : ∀ (f : Nat) (es es2 : EngineState)
    (pws : List PendingWrite),
    es.activeTransaction = true → es.activeUpdate = false →
    (∀ pw ∈ pws, pw.isSimple = true) →
    eval f es (.rpends pws) = (es2, none) →
    es2.st = pws.foldl stepW es.st ∧ es2.emitted = es.emitted ∧
    (∃ evs, es2.transactionEvents = es.transactionEvents ++ evs ∧
      evs.map Event.sig = pws.map (fun pw => some pw.sig)) ∧
    es2.activeTransaction = true ∧ es2.activeUpdate = false ∧
    es2.initialized = es.initialized ∧ es2.pf = es.pf := by
  intro f
  induction f with
  | zero =>
      intro es es2 pws _ _ _ h
      simp [eval] at h
  | succ f ih =>
      intro es es2 pws htxn hupd hsimp h
      cases pws with
      | nil =>
          simp only [eval] at h
          cases h
          exact ⟨rfl, rfl, ⟨[], by simp, by simp⟩, htxn, hupd, rfl, rfl⟩
      | cons pw rest =>
          simp only [eval] at h
          rcases hw : eval f es (.rwriter pw) with ⟨es1, err1⟩
          rw [hw] at h
          cases err1 with
          | some e => simp at h
          | none =>
              simp only at h
              cases f with
              | zero => simp [eval] at hw
              | succ f2 =>
                  obtain ⟨h1, h2, ⟨ev, h3, h4⟩, h5, h6, h7, h8⟩ :=
                    pendingWrite_effect f2 es es1 pw htxn hupd
                      (hsimp pw (List.mem_cons_self pw rest)) hw
                  obtain ⟨g1, g2, ⟨evs, g3, g4⟩, g5, g6, g7, g8⟩ :=
                    ih es1 es2 rest h5 h6
                      (fun q hq => hsimp q (List.mem_cons_of_mem pw hq)) h
                  refine ⟨?_, g2.trans h2, ⟨ev :: evs, ?_, ?_⟩, g5, g6,
                    g7.trans h7, g8.trans h8⟩
                  · rw [g1, h1]
                    simp
                  · rw [g3, h3]
                    simp
                  · simp [g4, h4]

theorem toPending_isSimple {o : SimpleOp} {pw : PendingWrite}
    (h : o.toPending = some pw) : pw.isSimple = true := by
  cases o with
  | sget p m => simp [SimpleOp.toPending] at h
  | sset p v m =>
      simp only [SimpleOp.toPending, Option.some.injEq] at h
      rw [← h]
      rfl
  | supdate p fu m =>
      simp only [SimpleOp.toPending, Option.some.injEq] at h
      rw [← h]
      rfl
  | sremove p m =>
      simp only [SimpleOp.toPending, Option.some.injEq] at h
      rw [← h]
      rfl

theorem simpleOp_counts : ∀ body : List SimpleOp,
    (body.filter (fun o => o.isWrite = false)).length +
      (body.filterMap SimpleOp.toPending).length = body.length := by
  intro body
  induction body with
  | nil => rfl
  | cons op rest ih =>
      cases op with
      | sget p m =>
          have h1 : List.filter (fun o => o.isWrite = false)
              (SimpleOp.sget p m :: rest) =
              SimpleOp.sget p m ::
                List.filter (fun o => o.isWrite = false) rest := rfl
          have h2 : List.filterMap SimpleOp.toPending
              (SimpleOp.sget p m :: rest) =
              List.filterMap SimpleOp.toPending rest := rfl
          rw [h1, h2]
          simp only [List.length_cons]
          omega
      | sset p v m =>
          have h1 : List.filter (fun o => o.isWrite = false)
              (SimpleOp.sset p v m :: rest) =
              List.filter (fun o => o.isWrite = false) rest := rfl
          have h2 : List.filterMap SimpleOp.toPending
              (SimpleOp.sset p v m :: rest) =
              PendingWrite.pset p v m ::
                List.filterMap SimpleOp.toPending rest := rfl
          rw [h1, h2]
          simp only [List.length_cons]
          omega
      | supdate p fu m =>
          have h1 : List.filter (fun o => o.isWrite = false)
              (SimpleOp.supdate p fu m :: rest) =
              List.filter (fun o => o.isWrite = false) rest := rfl
          have h2 : List.filterMap SimpleOp.toPending
              (SimpleOp.supdate p fu m :: rest) =
              PendingWrite.pupdate p (.pure fu) m ::
                List.filterMap SimpleOp.toPending rest := rfl
          rw [h1, h2]
          simp only [List.length_cons]
          omega
      | sremove p m =>
          have h1 : List.filter (fun o => o.isWrite = false)
              (SimpleOp.sremove p m :: rest) =
              List.filter (fun o => o.isWrite = false) rest := rfl
          have h2 : List.filterMap SimpleOp.toPending
              (SimpleOp.sremove p m :: rest) =
              PendingWrite.premove p m ::
                List.filterMap SimpleOp.toPending rest := rfl
          rw [h1, h2]
          simp only [List.length_cons]
          omega

/-- C1 (amended): a transaction on an idle, initialized store whose body is a
sequence of CRUD operations (with pure updaters) that completes without an
exception broadcasts exactly one event — a single Transaction event, with no
individual Get/Set/Update/Remove event reaching listeners while the
transaction is active; the Transaction event contains exactly one CRUD event
per operation of the body, but in buffering order: the Get events of the
body's reads, in call order, followed by the events of the body's writes, in
call order (not the interleaved call order); the deferred writes execute in
call order after the body returns, and the final state is the in-order fold
of their effects over the pre-transaction state; the engine returns to the
idle state with empty buffers. -/
theorem transaction_atomicity : ∀ (f : Nat) (es es2 : EngineState)
    (body : List SimpleOp) (meta : Option SVal),
    es.initialized = true → es.activeUpdate = false →
    es.activeTransaction = false → es.transactionWrites = [] →
    es.transactionEvents = [] →
    runOp f es (.otxn (body.map SimpleOp.toOp) meta) = (es2, none) →
    ∃ evs,
      es2.emitted = es.emitted ++ [Event.txn evs meta] ∧
      evs.map Event.sig =
        ((body.filter (fun o => o.isWrite = false)).map
          (fun o => some o.sig)) ++
        ((body.filterMap SimpleOp.toPending).map (fun pw => some pw.sig)) ∧
      evs.length = body.length ∧
      es2.st = (body.filterMap SimpleOp.toPending).foldl stepW es.st ∧
      es2.activeTransaction = false ∧ es2.activeUpdate = false ∧
      es2.transactionWrites = [] ∧ es2.transactionEvents = [] := by
  intro f es es2 body meta hinit hupd htxn htw hte h
  cases f with
  | zero => simp [runOp, eval] at h
  | succ f1 =>
      simp only [runOp, eval, doInit, hinit, if_true, reduceIte] at h
      cases f1 with
      | zero => simp [eval] at h
      | succ f2 =>
          simp only [eval, hupd, htxn, Bool.false_eq_true, if_false] at h
          rcases hb : eval f2
            { es with activeUpdate := false, activeTransaction := true }
            (.rops (body.map SimpleOp.toOp)) with ⟨esB, errB⟩
          rw [hb] at h
          cases errB with
          | some e => simp at h
          | none =>
              simp only at h
              obtain ⟨b1, b2, b3, ⟨gets, b4, b5⟩, b6, b7, b8, b9⟩ :=
                bodyPhase f2
                  { es with activeUpdate := false,
                            activeTransaction := true }
                  esB body hinit rfl hb
              rcases hd : eval f2 esB (.rpends esB.transactionWrites)
                with ⟨esC, errC⟩
              rw [hd] at h
              cases errC with
              | some e => simp at h
              | none =>
                  simp only at h
                  have hsimp : ∀ pw ∈ esB.transactionWrites,
                      pw.isSimple = true := by
                    rw [b3]
                    intro pw hpw
                    simp only [htw, List.nil_append,
                      List.mem_filterMap] at hpw
                    obtain ⟨o, _, hpd⟩ := hpw
                    exact toPending_isSimple hpd
                  obtain ⟨d1, d2, ⟨wevs, d3, d4⟩, d5, d6, d7, d8⟩ :=
                    deferredPhase f2 esB esC esB.transactionWrites b6
                      b7 hsimp hd
                  cases h
                  refine ⟨esC.transactionEvents, ?_, ?_, ?_, ?_, rfl, d6,
                    rfl, rfl⟩
                  · rw [d2, b2]
                  · rw [d3, b4, hte, List.nil_append, List.map_append, b5,
                      d4, b3, htw, List.nil_append]
                  · have hlen := congrArg List.length
                      (show esC.transactionEvents.map Event.sig = _ by
                        rw [d3, b4, hte, List.nil_append, List.map_append,
                          b5, d4, b3, htw, List.nil_append])
                    simp only [List.length_map, List.length_append]
                      at hlen
                    rw [hlen]
                    exact simpleOp_counts body
                  · rw [d1, b1, b3, htw, List.nil_append]

/-- Witness for C1 (amended) at a concrete input: the empty transaction on
the base store broadcasts exactly one (empty) Transaction event and leaves
the state and buffers as required. -/
theorem transaction_atomicity_witness :
    ∃ evs,
      (runOp 3 esBase
          (.otxn (List.map SimpleOp.toOp []) none)).1.emitted =
        esBase.emitted ++ [Event.txn evs none] ∧
      evs.map Event.sig =
        ((List.filter (fun o => o.isWrite = false)
          ([] : List SimpleOp)).map (fun o => some o.sig)) ++
        ((List.filterMap SimpleOp.toPending ([] : List SimpleOp)).map
          (fun pw => some pw.sig)) ∧
      evs.length = ([] : List SimpleOp).length ∧
      (runOp 3 esBase (.otxn (List.map SimpleOp.toOp []) none)).1.st =
        (List.filterMap SimpleOp.toPending ([] : List SimpleOp)).foldl
          stepW esBase.st ∧
      (runOp 3 esBase
        (.otxn (List.map SimpleOp.toOp []) none)).1.activeTransaction =
        false ∧
      (runOp 3 esBase
        (.otxn (List.map SimpleOp.toOp []) none)).1.activeUpdate = false ∧
      (runOp 3 esBase
        (.otxn (List.map SimpleOp.toOp []) none)).1.transactionWrites =
        [] ∧
      (runOp 3 esBase
        (.otxn (List.map SimpleOp.toOp []) none)).1.transactionEvents =
        [] :=
  transaction_atomicity 3 esBase
    (runOp 3 esBase (.otxn (List.map SimpleOp.toOp []) none)).1 [] none
    rfl rfl rfl rfl rfl rfl

/-- The joined string forms of two paths differ. -/
def JoinedNe (a b : List Key) : Prop := joined a ≠ joined b

theorem pairwise_head_cross {x : List Key} {A B : List (List Key)}
    (hpair : (x :: (A ++ B)).Pairwise JoinedNe) :
    ∀ q2 ∈ x :: A, ∀ q ∈ B, JoinedNe q2 q := by
  rcases List.pairwise_cons.mp hpair with ⟨hx, hAB⟩
  rcases List.pairwise_append.mp hAB with ⟨_, _, hcross⟩
  intro q2 hq2 q hq
  rcases List.mem_cons.mp hq2 with rfl | hq2A
  · exact hx q (List.mem_append_right A hq)
  · exact hcross q2 hq2A q hq

mutual

theorem rmClone_fresh : ∀ (v : SVal) (s : RMState) (path : List Key),
    NoExotic v = true →
    (∀ q ∈ path :: computeDescendantPaths path v,
      rmLookup s.cache (joined q) = none) →
    (path :: computeDescendantPaths path v).Pairwise JoinedNe →
    ∃ c s2, rmClone s path v = (.ok c, s2) ∧ c.toSVal = v ∧
      ∀ k, (∀ q ∈ path :: computeDescendantPaths path v, joined q ≠ k) →
        rmLookup s2.cache k = rmLookup s.cache k
  | .prim p, s, path, _, _, _ =>
      ⟨.prim p, s, rfl, rfl, fun _ _ => rfl⟩
  | .blob content, s, path, _, hc, _ => by
      have hmiss := hc path (List.mem_cons_self _ _)
      refine ⟨.node s.nextId true (.blob content) [],
        ⟨s.nextId + 1, rmInsert s.cache (joined path)
          (.node s.nextId true (.blob content) [])⟩,
        by simp [rmClone, hmiss], rfl, fun k hk => ?_⟩
      exact rmLookup_insert_ne
        (fun h => hk path (List.mem_cons_self _ _) h.symm) _ _
  | .file content name, s, path, _, hc, _ => by
      have hmiss := hc path (List.mem_cons_self _ _)
      refine ⟨.node s.nextId true (.file content name) [],
        ⟨s.nextId + 1, rmInsert s.cache (joined path)
          (.node s.nextId true (.file content name) [])⟩,
        by simp [rmClone, hmiss], rfl, fun k hk => ?_⟩
      exact rmLookup_insert_ne
        (fun h => hk path (List.mem_cons_self _ _) h.symm) _ _
  | .exotic, s, path, hne, _, _ => by
      simp [NoExotic] at hne
  | .record fields, s, path, hne, hc, hpair => by
      have hmiss := hc path (List.mem_cons_self _ _)
      have hfields : NoExoticFields fields = true := by
        simpa [NoExotic] using hne
      have hcf : ∀ q ∈ descendantsFields path fields,
          rmLookup ((⟨s.nextId + 1, s.cache⟩ : RMState)).cache
            (joined q) = none := by
        intro q hq
        exact hc q (List.mem_cons_of_mem _
          (by simpa [computeDescendantPaths] using hq))
      have hpf : (descendantsFields path fields).Pairwise JoinedNe := by
        have := List.pairwise_cons.mp hpair
        simpa [computeDescendantPaths] using this.2
      obtain ⟨cs, s2, hrun, hcs, hpres⟩ :=
        rmCloneFields_fresh fields ⟨s.nextId + 1, s.cache⟩ path
          hfields hcf hpf
      refine ⟨.node s.nextId true .record cs,
        ⟨s2.nextId, rmInsert s2.cache (joined path)
          (.node s.nextId true .record cs)⟩,
        by simp [rmClone, hmiss, hrun], by simp [CVal.toSVal, hcs],
        fun k hk => ?_⟩
      have h1 : rmLookup (rmInsert s2.cache (joined path)
          (.node s.nextId true .record cs)) k = rmLookup s2.cache k :=
        rmLookup_insert_ne
          (fun h => hk path (List.mem_cons_self _ _) h.symm) _ _
      have h2 : rmLookup s2.cache k = rmLookup s.cache k :=
        hpres k (fun q hq => hk q (List.mem_cons_of_mem _
          (by simpa [computeDescendantPaths] using hq)))
      exact h1.trans h2
  | .array elems, s, path, hne, hc, hpair => by
      have hmiss := hc path (List.mem_cons_self _ _)
      have helems : NoExoticElems elems = true := by
        simpa [NoExotic] using hne
      have hce : ∀ q ∈ descendantsElems path 0 elems,
          rmLookup ((⟨s.nextId + 1, s.cache⟩ : RMState)).cache
            (joined q) = none := by
        intro q hq
        exact hc q (List.mem_cons_of_mem _
          (by simpa [computeDescendantPaths] using hq))
      have hpe : (descendantsElems path 0 elems).Pairwise JoinedNe := by
        have := List.pairwise_cons.mp hpair
        simpa [computeDescendantPaths] using this.2
      obtain ⟨cs, s2, hrun, hcs, hpres⟩ :=
        rmCloneElems_fresh elems ⟨s.nextId + 1, s.cache⟩ path 0
          helems hce hpe
      refine ⟨.node s.nextId true .array cs,
        ⟨s2.nextId, rmInsert s2.cache (joined path)
          (.node s.nextId true .array cs)⟩,
        by simp [rmClone, hmiss, hrun], by simp [CVal.toSVal, hcs],
        fun k hk => ?_⟩
      have h1 : rmLookup (rmInsert s2.cache (joined path)
          (.node s.nextId true .array cs)) k = rmLookup s2.cache k :=
        rmLookup_insert_ne
          (fun h => hk path (List.mem_cons_self _ _) h.symm) _ _
      have h2 : rmLookup s2.cache k = rmLookup s.cache k :=
        hpres k (fun q hq => hk q (List.mem_cons_of_mem _
          (by simpa [computeDescendantPaths] using hq)))
      exact h1.trans h2

theorem rmCloneFields_fresh : ∀ (fs : List (JStr × SVal)) (s : RMState)
    (path : List Key),
    NoExoticFields fs = true →
    (∀ q ∈ descendantsFields path fs,
      rmLookup s.cache (joined q) = none) →
    (descendantsFields path fs).Pairwise JoinedNe →
    ∃ cs s2, rmCloneFields s path fs = (.ok cs, s2) ∧
      childrenToFields cs = fs ∧
      ∀ k, (∀ q ∈ descendantsFields path fs, joined q ≠ k) →
        rmLookup s2.cache k = rmLookup s.cache k
  | [], s, path, _, _, _ =>
      ⟨[], s, rfl, rfl, fun _ _ => rfl⟩
  | (k0, v0) :: rest, s, path, hne, hc, hpair => by
      have hsplit : descendantsFields path ((k0, v0) :: rest) =
          (path ++ [Key.str k0]) ::
            (computeDescendantPaths (path ++ [Key.str k0]) v0 ++
              descendantsFields path rest) := rfl
      rw [hsplit] at hc hpair
      have hv0 : NoExotic v0 = true := by
        simp only [NoExoticFields, Bool.and_eq_true] at hne
        exact hne.1
      have hrest : NoExoticFields rest = true := by
        simp only [NoExoticFields, Bool.and_eq_true] at hne
        exact hne.2
      have hsubChild : List.Sublist
          ((path ++ [Key.str k0]) ::
            computeDescendantPaths (path ++ [Key.str k0]) v0)
          ((path ++ [Key.str k0]) ::
            (computeDescendantPaths (path ++ [Key.str k0]) v0 ++
              descendantsFields path rest)) :=
        List.Sublist.cons₂ _ (List.sublist_append_left _ _)
      obtain ⟨c, s2, hrun1, hc1, hpres1⟩ :=
        rmClone_fresh v0 s (path ++ [Key.str k0]) hv0
          (fun q hq => hc q (hsubChild.mem hq))
          (hpair.sublist hsubChild)
      have hcross := pairwise_head_cross hpair
      have hcrest : ∀ q ∈ descendantsFields path rest,
          rmLookup s2.cache (joined q) = none := by
        intro q hq
        rw [hpres1 (joined q)
          (fun q2 hq2 => hcross q2 hq2 q hq)]
        exact hc q (List.mem_cons_of_mem _ (List.mem_append_right _ hq))
      have hprest : (descendantsFields path rest).Pairwise JoinedNe :=
        hpair.sublist
          ((List.sublist_append_right _ _).cons _)
      obtain ⟨cs2, s3, hrun2, hc2, hpres2⟩ :=
        rmCloneFields_fresh rest s2 path hrest hcrest hprest
      refine ⟨(k0, c) :: cs2, s3,
        by simp [rmCloneFields, hrun1, hrun2],
        by simp [childrenToFields, hc1, hc2], fun k hk => ?_⟩
      have h2 : rmLookup s3.cache k = rmLookup s2.cache k :=
        hpres2 k (fun q hq => hk q
          (List.mem_cons_of_mem _ (List.mem_append_right _ hq)))
      have h1 : rmLookup s2.cache k = rmLookup s.cache k :=
        hpres1 k (fun q hq => hk q (hsubChild.mem hq))
      exact h2.trans h1

theorem rmCloneElems_fresh : ∀ (vs : List SVal) (s : RMState)
    (path : List Key) (i : Nat),
    NoExoticElems vs = true →
    (∀ q ∈ descendantsElems path i vs,
      rmLookup s.cache (joined q) = none) →
    (descendantsElems path i vs).Pairwise JoinedNe →
    ∃ cs s2, rmCloneElems s path i vs = (.ok cs, s2) ∧
      childrenToElems cs = vs ∧
      ∀ k, (∀ q ∈ descendantsElems path i vs, joined q ≠ k) →
        rmLookup s2.cache k = rmLookup s.cache k
  | [], s, path, i, _, _, _ =>
      ⟨[], s, rfl, rfl, fun _ _ => rfl⟩
  | v0 :: rest, s, path, i, hne, hc, hpair => by
      have hsplit : descendantsElems path i (v0 :: rest) =
          (path ++ [Key.str (natKey i)]) ::
            (computeDescendantPaths (path ++ [Key.str (natKey i)]) v0 ++
              descendantsElems path (i + 1) rest) := rfl
      rw [hsplit] at hc hpair
      have hv0 : NoExotic v0 = true := by
        simp only [NoExoticElems, Bool.and_eq_true] at hne
        exact hne.1
      have hrest : NoExoticElems rest = true := by
        simp only [NoExoticElems, Bool.and_eq_true] at hne
        exact hne.2
      have hsubChild : List.Sublist
          ((path ++ [Key.str (natKey i)]) ::
            computeDescendantPaths (path ++ [Key.str (natKey i)]) v0)
          ((path ++ [Key.str (natKey i)]) ::
            (computeDescendantPaths (path ++ [Key.str (natKey i)]) v0 ++
              descendantsElems path (i + 1) rest)) :=
        List.Sublist.cons₂ _ (List.sublist_append_left _ _)
      obtain ⟨c, s2, hrun1, hc1, hpres1⟩ :=
        rmClone_fresh v0 s (path ++ [Key.str (natKey i)]) hv0
          (fun q hq => hc q (hsubChild.mem hq))
          (hpair.sublist hsubChild)
      have hcross := pairwise_head_cross hpair
      have hcrest : ∀ q ∈ descendantsElems path (i + 1) rest,
          rmLookup s2.cache (joined q) = none := by
        intro q hq
        rw [hpres1 (joined q)
          (fun q2 hq2 => hcross q2 hq2 q hq)]
        exact hc q (List.mem_cons_of_mem _ (List.mem_append_right _ hq))
      have hprest : (descendantsElems path (i + 1) rest).Pairwise
          JoinedNe :=
        hpair.sublist ((List.sublist_append_right _ _).cons _)
      obtain ⟨cs2, s3, hrun2, hc2, hpres2⟩ :=
        rmCloneElems_fresh rest s2 path (i + 1) hrest hcrest hprest
      refine ⟨(natKey i, c) :: cs2, s3,
        by simp [rmCloneElems, hrun1, hrun2],
        by simp [childrenToElems, hc1, hc2], fun k hk => ?_⟩
      have h2 : rmLookup s3.cache k = rmLookup s2.cache k :=
        hpres2 k (fun q hq => hk q
          (List.mem_cons_of_mem _ (List.mem_append_right _ hq)))
      have h1 : rmLookup s2.cache k = rmLookup s.cache k :=
        hpres1 k (fun q hq => hk q (hsubChild.mem hq))
      exact h2.trans h1

end

/-- C10: inside a transaction body, get does not observe writes issued
earlier in the same body: for a body [set(p, v); get(p)] on a path p that
held u before the transaction, the buffered Get event carries a read-manager
clone of u — structurally equal to the pre-transaction value u, not to v —
because the set's execution is deferred until the body returns.  Hypotheses:
the store is initialized and idle with empty buffers and an empty read
cache, p came from the store's factory, u is exotic-free, and the string
forms of p and of u's descendant paths are pairwise distinct (the interning
collisions of C9 are excluded). -/
theorem get_in_transaction_reads_pre_state :
    ∀ (f : Nat) (es es2 : EngineState) (p : PathObj) (u v : SVal)
      (m1 m2 meta : Option SVal),
    es.initialized = true → es.activeUpdate = false →
    es.activeTransaction = false → es.transactionWrites = [] →
    es.transactionEvents = [] → es.rm.cache = [] →
    fromFactory es.pf p = true →
    getByPath es.st p.keys = some u → NoExotic u = true →
    (p.keys :: computeDescendantPaths p.keys u).Pairwise JoinedNe →
    runOp f es (.otxn [.oset p v m1, .oget p m2] meta) = (es2, none) →
    ∃ c evs,
      es2.emitted = es.emitted ++
        [Event.txn (Event.get p c m2 :: evs) meta] ∧
      c.toSVal = u := by
  intro f es es2 p u v m1 m2 meta hinit hupd htxn htw hte hrm hpf hu hnex
    hpair h
  obtain ⟨c, rmF, hrun, hcu, _⟩ :=
    rmClone_fresh u es.rm p.keys hnex (fun q _ => by rw [hrm]; rfl) hpair
  cases f with
  | zero => simp [runOp, eval] at h
  | succ fa =>
      simp only [runOp, eval, doInit, hinit, if_true, reduceIte] at h
      cases fa with
      | zero => simp [eval] at h
      | succ fb =>
          simp only [eval, hupd, htxn, Bool.false_eq_true, if_false] at h
          split at h
          case h_1 => simp at h
          case h_2 esB hb =>
              cases fb with
              | zero => simp [eval] at hb
              | succ fc =>
                  simp only [eval] at hb
                  cases fc with
                  | zero => simp [eval] at hb
                  | succ fd =>
                      simp only [eval, doInit, hinit, if_true, reduceIte,
                        htw, List.nil_append] at hb
                      cases fd with
                      | zero => simp [eval] at hb
                      | succ fe =>
                          simp only [eval, doInit, hinit, if_true,
                            reduceIte, hpf, rawGet, hu, hrun,
                            Prod.mk.injEq, and_true] at hb
                          have hbT : esB.activeTransaction = true := by
                            rw [← hb, announce_activeTransaction]
                          have hbUP : esB.activeUpdate = false := by
                            rw [← hb, announce_activeUpdate]
                          have hbTW : esB.transactionWrites =
                              [PendingWrite.pset p v m1] := by
                            rw [← hb, announce_tw]
                          have hbTE : esB.transactionEvents =
                              [Event.get p c m2] := by
                            rw [← hb, announce_te_of_txn _ _ rfl, hte,
                              List.nil_append]
                          have hbEM : esB.emitted = es.emitted := by
                            rw [← hb, announce_emitted_of_txn _ _ rfl]
                          split at h
                          case h_1 => simp at h
                          case h_2 esC hd =>
                              obtain ⟨_, hdem, ⟨wevs, hdte, _⟩,
                                  _, _, _, _⟩ :=
                                deferredPhase _ esB esC
                                  esB.transactionWrites hbT hbUP
                                  (by
                                    rw [hbTW]
                                    intro pw hpw
                                    simp at hpw
                                    subst hpw
                                    rfl)
                                  hd
                              cases h
                              refine ⟨c, wevs, ?_, hcu⟩
                              simp only [hdem, hbEM, hdte, hbTE,
                                List.singleton_append]

/-- Concrete run of the C10 theorem: on the base store, a transaction whose
body sets "a" to 7 and then reads "a" buffers a Get event carrying the old
value 1. -/
theorem get_in_transaction_reads_pre_state_witness :
    ∃ c evs,
      ((runOp 9 esBase
          (.otxn [.oset pa (.prim (.num 7)) none, .oget pa none]
            none)).1).emitted =
        esBase.emitted ++ [Event.txn (Event.get pa c none :: evs) none] ∧
      c.toSVal = .prim (.num 1) :=
  get_in_transaction_reads_pre_state 9 esBase
    (runOp 9 esBase
      (.otxn [.oset pa (.prim (.num 7)) none, .oget pa none] none)).1
    pa (.prim (.num 1)) (.prim (.num 7)) none none none
    rfl rfl rfl rfl rfl rfl (by decide) rfl rfl
    (by simp [computeDescendantPaths]) (by rfl)

/-! C8 works on an explicit heap: the tree type SVal cannot express the
aliasing and cycles that real JS object graphs have, so the clone of
utils/clone.ts is re-embedded over heap addresses.  A runtime value is a
reference (primitive or pointer); complex objects live in a heap and their
enumerable own properties hold further references. -/

/-- A reference held by a variable or a property: an embedded primitive
(strings, numbers, bigints, booleans, null are reference-agnostic, per
utils/isPrimitive.ts) or a pointer to a heap object. -/
inductive HRef
  | rprim (p : Prim)
  | raddr (a : Nat)
  deriving DecidableEq, Repr

/-- A heap object: a plain record, an array, a Blob, a File, or an exotic
object that cloneComplex refuses (Map, Set, class instance...). -/
inductive HNode
  | hrec (fields : List (JStr × HRef))
  | harr (elems : List HRef)
  | hblob (content : JStr)
  | hfile (content : JStr) (name : JStr)
  | hexotic
  deriving DecidableEq, Repr

/-- The object graph: which object lives at which address. -/
abbrev Heap := List (Nat × HNode)

/-- Dereference an address. -/
def hlookup : Heap → Nat → Option HNode
  | [], _ => none
  | (a, n) :: rest, b => if a = b then some n else hlookup rest b

/-- The child references of a heap object in enumeration order: record
fields in insertion order, array elements by index; Blob and File have no
enumerable own properties, so cloneHelper does not recurse into them. -/
def hchildren : HNode → List HRef
  | .hrec fields => fields.map Prod.snd
  | .harr elems => elems
  | .hblob _ => []
  | .hfile _ _ => []
  | .hexotic => []

/-- Reassemble the clone produced for a heap object from the clones of its
children: cloneComplex makes the empty shell ({} for records, a copied
array, a copied Blob/File) and the loop then sets each own property to the
recursively cloned child.  The result is a plain tree, hence an SVal. -/
def hrebuild : HNode → List SVal → SVal
  | .hrec fields, ts => .record (List.zip (fields.map Prod.fst) ts)
  | .harr _, ts => .array ts
  | .hblob content, _ => .blob content
  | .hfile content name, _ => .file content name
  | .hexotic, _ => .exotic

/-- Request for the heap-clone evaluator: clone one reference, or clone a
property list left to right (the for-of loop over Object.entries). -/
inductive CReq
  | cref (r : HRef)
  | crefs (rs : List HRef)

/-- The references a request works on. -/
def creqRefs : CReq → List HRef
  | .cref r => [r]
  | .crefs rs => rs

/-- Embeds cloneHelper from utils/clone.ts over the heap.  `vis` is the
clonedValues set of already-visited source references (a set of addresses:
only complex values are ever added).  Order per the source: primitives are
returned as they are; a revisited complex value throws the
reference-agnosticism error (ReferenceCycle) before anything else;
cloneComplex then rejects exotic objects (Uncloneable); the value is added
to the visited set only after cloneComplex succeeds, and the children are
cloned left to right against the growing set, which is never pruned — this
single per-call set is what detects both cycles and sibling aliasing.  A
dangling address cannot arise at runtime (JS references always point at
live objects); the embedding returns Uncloneable for it and the theorems
exclude it by hypothesis.  The first argument is recursion fuel; `none`
means the fuel ran out. -/
def cloneH : Nat → Heap → List Nat → CReq →
    Option (Except CloneErr (List Nat × List SVal))
  | 0, _, _, _ => none
  | _ + 1, _, vis, .cref (.rprim p) => some (.ok (vis, [.prim p]))
  | f + 1, H, vis, .cref (.raddr a) =>
      if a ∈ vis then some (.error .refCycle)
      else
        match hlookup H a with
        | none => some (.error .uncloneable)
        | some node =>
            if node = .hexotic then some (.error .uncloneable)
            else
              match cloneH f H (a :: vis) (.crefs (hchildren node)) with
              | none => none
              | some (.error e) => some (.error e)
              | some (.ok (vis2, ts)) =>
                  some (.ok (vis2, [hrebuild node ts]))
  | _ + 1, _, vis, .crefs [] => some (.ok (vis, []))
  | f + 1, H, vis, .crefs (r :: rest) =>
      match cloneH f H vis (.cref r) with
      | none => none
      | some (.error e) => some (.error e)
      | some (.ok (vis1, ts1)) =>
          match cloneH f H vis1 (.crefs rest) with
          | none => none
          | some (.error e) => some (.error e)
          | some (.ok (vis2, ts2)) => some (.ok (vis2, ts1 ++ ts2))

/-- Follow a chain of child indices from a reference and return the address
reached (access paths name the occurrences of objects in the graph). -/
def resolveH : Heap → HRef → List Nat → Option Nat
  | _, .rprim _, _ => none
  | _, .raddr a, [] => some a
  | H, .raddr a, i :: rest =>
      match hlookup H a with
      | none => none
      | some node =>
          match (hchildren node).get? i with
          | none => none
          | some r => resolveH H r rest

/-- The object graph below r has a cycle or a shared sub-object: some
address is reachable along two distinct access paths.  (A cycle is the
special case where one path extends the other.) -/
def SharingH (H : Heap) (r : HRef) : Prop :=
  ∃ p1 p2 a, p1 ≠ p2 ∧ resolveH H r p1 = some a ∧
    resolveH H r p2 = some a

/-- Every object reachable from r is a live, cloneable (non-exotic) heap
object — i.e. r is a well-typed StoreValue graph, where the only clone
failure left is the reference-agnosticism check. -/
def CleanH (H : Heap) (r : HRef) : Prop :=
  ∀ p a, resolveH H r p = some a →
    ∃ node, hlookup H a = some node ∧ node ≠ .hexotic

/-- The clonedValues set only grows: a successful clone call ends with
every address it started with still recorded. -/
theorem cloneH_mono : ∀ (f : Nat) (H : Heap) (vis : List Nat) (req : CReq)
    (vis2 : List Nat) (ts : List SVal),
    cloneH f H vis req = some (.ok (vis2, ts)) →
    ∀ x, x ∈ vis → x ∈ vis2 := by
  intro f
  induction f with
  | zero =>
      intro H vis req vis2 ts h
      simp [cloneH] at h
  | succ f ih =>
      intro H vis req vis2 ts h x hx
      cases req with
      | cref r =>
          cases r with
          | rprim p =>
              simp only [cloneH, Option.some.injEq, Except.ok.injEq,
                Prod.mk.injEq] at h
              exact h.1 ▸ hx
          | raddr a =>
              simp only [cloneH] at h
              split at h
              · simp at h
              · split at h
                · simp at h
                next node hnode =>
                  split at h
                  · simp at h
                  · split at h
                    · simp at h
                    · simp at h
                    next visC tsC heq =>
                      simp only [Option.some.injEq, Except.ok.injEq,
                        Prod.mk.injEq] at h
                      exact h.1 ▸ ih H (a :: vis)
                        (.crefs (hchildren node)) visC tsC heq x
                        (List.mem_cons_of_mem _ hx)
      | crefs rs =>
          cases rs with
          | nil =>
              simp only [cloneH, Option.some.injEq, Except.ok.injEq,
                Prod.mk.injEq] at h
              exact h.1 ▸ hx
          | cons r rest =>
              simp only [cloneH] at h
              split at h
              · simp at h
              · simp at h
              next vis1 ts1 heq1 =>
                split at h
                · simp at h
                · simp at h
                next visC ts2 heq2 =>
                  simp only [Option.some.injEq, Except.ok.injEq,
                    Prod.mk.injEq] at h
                  exact h.1 ▸ ih H vis1 (.crefs rest) visC ts2 heq2 x
                    (ih H vis (.cref r) vis1 ts1 heq1 x hx)

/-- Visited-set characterization of a successful clone: every address
reachable from any of the cloned references ends up recorded in the final
visited set, and none of them was in the starting set (otherwise the
reference-agnosticism check would have fired). -/
theorem cloneH_visits : ∀ (f : Nat) (H : Heap) (vis : List Nat)
    (req : CReq) (vis2 : List Nat) (ts : List SVal),
    cloneH f H vis req = some (.ok (vis2, ts)) →
    ∀ r, r ∈ creqRefs req → ∀ p a, resolveH H r p = some a →
      a ∈ vis2 ∧ ¬a ∈ vis := by
  intro f
  induction f with
  | zero =>
      intro H vis req vis2 ts h
      simp [cloneH] at h
  | succ f ih =>
      intro H vis req vis2 ts h r hr p a hres
      cases req with
      | cref r0 =>
          simp only [creqRefs, List.mem_singleton] at hr
          subst hr
          cases r with
          | rprim q => simp [resolveH] at hres
          | raddr b =>
              simp only [cloneH] at h
              split at h
              · simp at h
              next hbvis =>
                split at h
                · simp at h
                next node hnode =>
                  split at h
                  · simp at h
                  next hnex =>
                    split at h
                    · simp at h
                    · simp at h
                    next visC tsC heq =>
                      simp only [Option.some.injEq, Except.ok.injEq,
                        Prod.mk.injEq] at h
                      cases p with
                      | nil =>
                          simp only [resolveH, Option.some.injEq] at hres
                          subst hres
                          exact ⟨h.1 ▸ cloneH_mono f H (b :: vis)
                            (.crefs (hchildren node)) visC tsC heq b
                            (List.mem_cons_self _ _), hbvis⟩
                      | cons i rest =>
                          simp only [resolveH, hnode] at hres
                          split at hres
                          · simp at hres
                          next rc hget =>
                            have hv := ih H (b :: vis)
                              (.crefs (hchildren node)) visC tsC heq rc
                              (List.get?_mem hget) rest a hres
                            exact ⟨h.1 ▸ hv.1,
                              fun hav => hv.2 (List.mem_cons_of_mem _ hav)⟩
      | crefs rs =>
          cases rs with
          | nil => simp [creqRefs] at hr
          | cons r0 rest =>
              simp only [cloneH] at h
              split at h
              · simp at h
              · simp at h
              next vis1 ts1 heq1 =>
                split at h
                · simp at h
                · simp at h
                next visC ts2 heq2 =>
                  simp only [Option.some.injEq, Except.ok.injEq,
                    Prod.mk.injEq] at h
                  simp only [creqRefs, List.mem_cons] at hr
                  cases hr with
                  | inl hr0 =>
                      subst hr0
                      have hv := ih H vis (.cref r) vis1 ts1 heq1 r
                        (List.mem_singleton.mpr rfl) p a hres
                      exact ⟨h.1 ▸ cloneH_mono f H vis1 (.crefs rest)
                        visC ts2 heq2 a hv.1, hv.2⟩
                  | inr hrR =>
                      have hv := ih H vis1 (.crefs rest) visC ts2 heq2 r
                        hrR p a hres
                      exact ⟨h.1 ▸ hv.1, fun hav => hv.2
                        (cloneH_mono f H vis (.cref r0) vis1 ts1 heq1 a
                          hav)⟩

/-- Injectivity of a successful clone: no address is reachable along two
different access paths from the cloned references.  This is the formal
content of "the single per-call visited set detects both cases": had two
occurrences of one object survived cloning, the second visit would have
found the first one in the set and failed. -/
theorem cloneH_inj : ∀ (f : Nat) (H : Heap) (vis : List Nat) (req : CReq)
    (vis2 : List Nat) (ts : List SVal),
    cloneH f H vis req = some (.ok (vis2, ts)) →
    ∀ (j1 : Nat) (r1 : HRef) (p1 : List Nat) (j2 : Nat) (r2 : HRef)
      (p2 : List Nat) (a : Nat),
    (creqRefs req).get? j1 = some r1 → resolveH H r1 p1 = some a →
    (creqRefs req).get? j2 = some r2 → resolveH H r2 p2 = some a →
    j1 = j2 ∧ p1 = p2 := by
  intro f
  induction f with
  | zero =>
      intro H vis req vis2 ts h
      simp [cloneH] at h
  | succ f ih =>
      intro H vis req vis2 ts h j1 r1 p1 j2 r2 p2 a hget1 hres1 hget2
        hres2
      cases req with
      | cref r0 =>
          cases j1 with
          | succ k => simp [creqRefs, List.get?] at hget1
          | zero =>
            cases j2 with
            | succ k => simp [creqRefs, List.get?] at hget2
            | zero =>
              simp only [creqRefs, List.get?, Option.some.injEq]
                at hget1 hget2
              subst hget1
              subst hget2
              refine ⟨rfl, ?_⟩
              cases r0 with
              | rprim q => simp [resolveH] at hres1
              | raddr b =>
                  simp only [cloneH] at h
                  split at h
                  · simp at h
                  next hbvis =>
                    split at h
                    · simp at h
                    next node hnode =>
                      split at h
                      · simp at h
                      next hnex =>
                        split at h
                        · simp at h
                        · simp at h
                        next visC tsC heq =>
                          cases p1 with
                          | nil =>
                              cases p2 with
                              | nil => rfl
                              | cons i2 q2 =>
                                  simp only [resolveH,
                                    Option.some.injEq] at hres1
                                  subst hres1
                                  simp only [resolveH, hnode] at hres2
                                  split at hres2
                                  · simp at hres2
                                  next rc2 hgc2 =>
                                    exact absurd (List.mem_cons_self b vis)
                                      ((cloneH_visits f H (b :: vis)
                                        (.crefs (hchildren node)) visC
                                        tsC heq rc2
                                        (List.get?_mem hgc2) q2 b
                                        hres2).2)
                          | cons i1 q1 =>
                              cases p2 with
                              | nil =>
                                  simp only [resolveH,
                                    Option.some.injEq] at hres2
                                  subst hres2
                                  simp only [resolveH, hnode] at hres1
                                  split at hres1
                                  · simp at hres1
                                  next rc1 hgc1 =>
                                    exact absurd (List.mem_cons_self b vis)
                                      ((cloneH_visits f H (b :: vis)
                                        (.crefs (hchildren node)) visC
                                        tsC heq rc1
                                        (List.get?_mem hgc1) q1 b
                                        hres1).2)
                              | cons i2 q2 =>
                                  simp only [resolveH, hnode]
                                    at hres1 hres2
                                  split at hres1
                                  · simp at hres1
                                  next rc1 hgc1 =>
                                    split at hres2
                                    · simp at hres2
                                    next rc2 hgc2 =>
                                      have hij := ih H (b :: vis)
                                        (.crefs (hchildren node)) visC
                                        tsC heq i1 rc1 q1 i2 rc2 q2 a
                                        hgc1 hres1 hgc2 hres2
                                      rw [hij.1, hij.2]
      | crefs rs =>
          cases rs with
          | nil => simp [creqRefs, List.get?] at hget1
          | cons r0 rest =>
              simp only [cloneH] at h
              split at h
              · simp at h
              · simp at h
              next vis1 ts1 heq1 =>
                split at h
                · simp at h
                · simp at h
                next visC ts2 heq2 =>
                  simp only [creqRefs] at hget1 hget2
                  cases j1 with
                  | zero =>
                      simp only [List.get?, Option.some.injEq] at hget1
                      subst hget1
                      cases j2 with
                      | zero =>
                          simp only [List.get?, Option.some.injEq]
                            at hget2
                          subst hget2
                          exact ⟨rfl, (ih H vis (.cref r0) vis1 ts1
                            heq1 0 r0 p1 0 r0 p2 a rfl hres1 rfl
                            hres2).2⟩
                      | succ k2 =>
                          simp only [List.get?] at hget2
                          have hv1 := cloneH_visits f H vis (.cref r0)
                            vis1 ts1 heq1 r0 (List.mem_singleton.mpr
                              rfl) p1 a hres1
                          have hv2 := cloneH_visits f H vis1
                            (.crefs rest) visC ts2 heq2 r2
                            (List.get?_mem hget2) p2 a hres2
                          exact absurd hv1.1 hv2.2
                  | succ k1 =>
                      simp only [List.get?] at hget1
                      cases j2 with
                      | zero =>
                          simp only [List.get?, Option.some.injEq]
                            at hget2
                          subst hget2
                          have hv2 := cloneH_visits f H vis (.cref r0)
                            vis1 ts1 heq1 r0 (List.mem_singleton.mpr
                              rfl) p2 a hres2
                          have hv1 := cloneH_visits f H vis1
                            (.crefs rest) visC ts2 heq2 r1
                            (List.get?_mem hget1) p1 a hres1
                          exact absurd hv2.1 hv1.2
                      | succ k2 =>
                          simp only [List.get?] at hget2
                          have hij := ih H vis1 (.crefs rest) visC ts2
                            heq2 k1 r1 p1 k2 r2 p2 a hget1 hres1 hget2
                            hres2
                          exact ⟨by rw [hij.1], hij.2⟩

/-- On a clean graph (all reachable objects live and cloneable), the only
error cloneHelper can raise is the reference-agnosticism failure. -/
theorem cloneH_err_clean : ∀ (f : Nat) (H : Heap) (vis : List Nat)
    (req : CReq) (e : CloneErr),
    (∀ r ∈ creqRefs req, CleanH H r) →
    cloneH f H vis req = some (.error e) →
    e = .refCycle := by
  intro f
  induction f with
  | zero =>
      intro H vis req e hclean h
      simp [cloneH] at h
  | succ f ih =>
      intro H vis req e hclean h
      cases req with
      | cref r0 =>
          cases r0 with
          | rprim q => simp [cloneH] at h
          | raddr b =>
              have hcb := hclean (.raddr b) (List.mem_singleton.mpr rfl)
              simp only [cloneH] at h
              split at h
              · simp only [Option.some.injEq, Except.error.injEq] at h
                exact h.symm
              next hbvis =>
                split at h
                next hnone =>
                  obtain ⟨node, hnode, _⟩ := hcb [] b (by
                    simp [resolveH])
                  rw [hnode] at hnone
                  simp at hnone
                next node hnode =>
                  split at h
                  next hex =>
                    obtain ⟨node2, hnode2, hne2⟩ := hcb [] b (by
                      simp [resolveH])
                    rw [hnode] at hnode2
                    simp only [Option.some.injEq] at hnode2
                    exact absurd (hnode2 ▸ hex) hne2
                  next hnex =>
                    split at h
                    · simp at h
                    next e0 heq =>
                      simp only [Option.some.injEq,
                        Except.error.injEq] at h
                      subst h
                      refine ih H (b :: vis) (.crefs (hchildren node))
                        e0 ?_ heq
                      intro rc hrc
                      obtain ⟨i, hget⟩ :=
                        List.get?_of_mem hrc
                      intro p c hres
                      refine hcb (i :: p) c ?_
                      simp only [creqRefs, List.get?_eq_getElem?]
                        at hget
                      simp [resolveH, hnode, hget, hres]
                    next visC tsC heq => simp at h
      | crefs rs =>
          cases rs with
          | nil => simp [cloneH] at h
          | cons r0 rest =>
              simp only [cloneH] at h
              split at h
              · simp at h
              next e0 heq1 =>
                simp only [Option.some.injEq, Except.error.injEq] at h
                subst h
                exact ih H vis (.cref r0) e0
                  (fun rr hrr => by
                    simp only [creqRefs, List.mem_singleton] at hrr
                    subst hrr
                    exact hclean rr (List.mem_cons_self _ _))
                  heq1
              next vis1 ts1 heq1 =>
                split at h
                · simp at h
                next e0 heq2 =>
                  simp only [Option.some.injEq, Except.error.injEq] at h
                  subst h
                  exact ih H vis1 (.crefs rest) e0
                    (fun rr hrr => hclean rr
                      (List.mem_cons_of_mem _ hrr))
                    heq2
                next visC ts2 heq2 => simp at h

/-- C8: for every value whose object graph contains a cycle or any shared
sub-object reachable twice by reference (aliasing, including between
siblings) — formalized as one address reachable along two distinct access
paths, which subsumes cycles — clone raises the ReferenceCycle error: on a
clean graph (all reachable objects live StoreValues, so no other clone
failure applies) every terminating run of the embedded cloneHelper returns
exactly the reference-agnosticism error, because the single per-call
visited set catches the second occurrence in both cases. -/
theorem clone_rejects_shared_references :
    ∀ (H : Heap) (r : HRef) (f : Nat)
      (res : Except CloneErr (List Nat × List SVal)),
    CleanH H r → SharingH H r →
    cloneH f H [] (.cref r) = some res →
    res = .error .refCycle := by
  intro H r f res hclean hshare h
  cases res with
  | ok out =>
      obtain ⟨p1, p2, a, hne, h1, h2⟩ := hshare
      obtain ⟨vis2, ts⟩ := out
      exact absurd (cloneH_inj f H [] (.cref r) vis2 ts h 0 r p1 0 r p2
        a rfl h1 rfl h2).2 hne
  | error e =>
      rw [cloneH_err_clean f H [] (.cref r) e
        (fun rr hrr => by
          simp only [creqRefs, List.mem_singleton] at hrr
          subst hrr
          exact hclean)
        h]

/-- The two-field record {x: inner, y: inner} whose fields alias one and
the same empty record object: address 0 is the outer record, address 1 the
shared inner one. -/
def heapShared : Heap :=
  [(0, .hrec [(['x'], .raddr 1), (['y'], .raddr 1)]),
    (1, .hrec [])]

/-- Everything reachable in the shared heap is a live record. -/
theorem heapShared_clean : CleanH heapShared (.raddr 0) := by
  intro p a h
  cases p with
  | nil =>
      simp only [resolveH, Option.some.injEq] at h
      subst h
      exact ⟨.hrec [(['x'], .raddr 1), (['y'], .raddr 1)], rfl,
        by decide⟩
  | cons i rest =>
      simp only [resolveH, heapShared, hlookup, reduceIte, hchildren,
        List.map_cons, List.map_nil] at h
      have hone : ∀ q c, resolveH heapShared (.raddr 1) q = some c →
          ∃ node, hlookup heapShared c = some node ∧
            node ≠ .hexotic := by
        intro q c hq
        cases q with
        | nil =>
            simp only [resolveH, Option.some.injEq] at hq
            subst hq
            exact ⟨.hrec [], rfl, by decide⟩
        | cons j q2 =>
            simp [resolveH, heapShared, hlookup, hchildren,
              List.get?] at hq
      cases i with
      | zero =>
          simp only [List.get?] at h
          exact hone rest a h
      | succ i1 =>
          cases i1 with
          | zero =>
              simp only [List.get?] at h
              exact hone rest a h
          | succ i2 =>
              simp only [List.get?] at h
              exact absurd h (by simp)

/-- Address 1 is reachable through field x (path [0]) and through field y
(path [1]). -/
theorem heapShared_sharing : SharingH heapShared (.raddr 0) :=
  ⟨[0], [1], 1, by decide, by decide, by decide⟩

/-- Concrete run of the C8 theorem: cloning the record whose two fields
alias the same inner object stops with the ReferenceCycle error. -/
theorem clone_rejects_shared_references_witness :
    ∃ res, cloneH 4 heapShared [] (.cref (.raddr 0)) = some res ∧
      res = Except.error CloneErr.refCycle :=
  ⟨.error .refCycle, rfl,
    clone_rejects_shared_references heapShared (.raddr 0) 4
      (.error .refCycle) heapShared_clean heapShared_sharing rfl⟩

end GactStore
